import Mathlib

/-!
# krgpg: git-object parsing, response classification, fallback and logging

A shallow embedding of `src/krgpg/krgpg.go`.

* A Go `string` / `[]byte` is a list of bytes (`GoString`, natural numbers below 256).
* `bufio.Reader` over the in-memory standard input is the list of bytes not yet consumed.
* Collaborators that live outside `krgpg.go` (the daemon client, `kr.NewRequest`,
  `kr.HasGPG`, the local `gpg` executable, the notification reader) are parameters.
* `os.Exit` ends the run: the functions return a record of what the process did.
* Writes to the diagnostic stream are left out, except the status line chosen by
  `requestSignature` and the notifications printed by `startLogger`.
-/

namespace Krgpg

/-! ## Go strings and the library functions used by the parser -/

/-- A Go string or byte slice: its bytes in order. -/
abbrev GoString := List Nat

/-- The bytes of an ASCII literal. -/
def ascii (s : String) : GoString := s.toList.map Char.toNat

/-- Code point `utf8.RuneError`, produced for every byte that is not part of a valid encoding. -/
def RuneError : Nat := 0xFFFD

/-- Table `first` of package `unicode/utf8` for the lead bytes of multi-byte encodings:
the size of the encoding and the accepted range of the second byte. -/
def first (b : Nat) : Option (Nat × Nat × Nat) :=
  if 0xC2 ≤ b ∧ b ≤ 0xDF then some (2, 0x80, 0xBF)
  else if b = 0xE0 then some (3, 0xA0, 0xBF)
  else if 0xE1 ≤ b ∧ b ≤ 0xEC then some (3, 0x80, 0xBF)
  else if b = 0xED then some (3, 0x80, 0x9F)
  else if 0xEE ≤ b ∧ b ≤ 0xEF then some (3, 0x80, 0xBF)
  else if b = 0xF0 then some (4, 0x90, 0xBF)
  else if 0xF1 ≤ b ∧ b ≤ 0xF3 then some (4, 0x80, 0xBF)
  else if b = 0xF4 then some (4, 0x80, 0x8F)
  else none

/-- Function `utf8.DecodeRuneInString`: the first code point of `s` and the number of bytes
it occupies; an invalid or truncated encoding yields `(RuneError, 1)`. -/
def decodeRune : GoString → Nat × Nat
  | [] => (RuneError, 0)
  | s0 :: tl =>
    if s0 < 0x80 then (s0, 1)
    else match first s0 with
      | none => (RuneError, 1)
      | some (sz, lo, hi) =>
        if tl.length + 1 < sz then (RuneError, 1)
        else match tl with
          | [] => (RuneError, 1)
          | s1 :: tl1 =>
            if s1 < lo ∨ hi < s1 then (RuneError, 1)
            else if sz ≤ 2 then ((s0 % 32) * 64 + s1 % 64, 2)
            else match tl1 with
              | [] => (RuneError, 1)
              | s2 :: tl2 =>
                if s2 < 0x80 ∨ 0xBF < s2 then (RuneError, 1)
                else if sz ≤ 3 then ((s0 % 16) * 4096 + (s1 % 64) * 64 + s2 % 64, 3)
                else match tl2 with
                  | [] => (RuneError, 1)
                  | s3 :: _ =>
                    if s3 < 0x80 ∨ 0xBF < s3 then (RuneError, 1)
                    else ((s0 % 8) * 262144 + (s1 % 64) * 4096 + (s2 % 64) * 64 + s3 % 64, 4)

/-- Function `unicode.IsSpace`. -/
def isSpace (r : Nat) : Bool :=
  (0x09 ≤ r ∧ r ≤ 0x0D) ∨ r = 0x20 ∨ r = 0x85 ∨ r = 0xA0 ∨ r = 0x1680 ∨
  (0x2000 ≤ r ∧ r ≤ 0x200A) ∨ r = 0x2028 ∨ r = 0x2029 ∨ r = 0x202F ∨ r = 0x205F ∨
  r = 0x3000

/-- The iteration `for i, rune := range s`: every code point with the bytes it occupies.
The second argument counts the bytes of the current code point still to be skipped. -/
def runesFrom : GoString → Nat → List (Nat × GoString)
  | [], _ => []
  | b :: tl, 0 =>
    let d := decodeRune (b :: tl)
    (d.1, (b :: tl).take d.2) :: runesFrom tl (d.2 - 1)
  | _ :: tl, k + 1 => runesFrom tl k

/-- The code points of `s`, each with its bytes. -/
def runes (s : GoString) : List (Nat × GoString) := runesFrom s 0

/-- The loop of `strings.FieldsFunc(s, unicode.IsSpace)`; `cur` is the field being read
(`none` when `fieldStart` is negative). -/
def fieldsLoop : List (Nat × GoString) → Option GoString → List GoString
  | [], none => []
  | [], some f => [f]
  | (r, bs) :: rest, cur =>
    if isSpace r then
      match cur with
      | some f => f :: fieldsLoop rest none
      | none => fieldsLoop rest none
    else fieldsLoop rest (some (cur.getD [] ++ bs))

/-- Function `strings.Fields`: the maximal runs of non-white-space characters of `s`. -/
def Fields (s : GoString) : List GoString := fieldsLoop (runes s) none

/-- Function `strings.Join`. -/
def Join (a : List GoString) (sep : GoString) : GoString := sep.intercalate a

/-- Errors that occur in `krgpg.go`. -/
inductive Error
  /-- Value `io.EOF`. -/
  | EOF
  /-- Result of `fmt.Errorf(format, args...)`, identified by its arguments. -/
  | Errorf (format : GoString) (args : List GoString)
  /-- Sentinel `kr.ErrNotPaired`. -/
  | ErrNotPaired
  /-- Sentinel `kr.ErrConnectingToDaemon`. -/
  | ErrConnectingToDaemon
  /-- Any other error value handed back by a collaborator. -/
  | Other (detail : GoString)
  deriving DecidableEq

/-- Method `(*bufio.Reader).ReadString('\n')`: the bytes up to and including the first
newline, the error (`io.EOF` when the input ends before a newline) and the reader after
the call. -/
def ReadString : List Nat → GoString × Option Error × List Nat
  | [] => ([], some Error.EOF, [])
  | b :: tl =>
    if b = 10 then ([10], none, tl)
    else
      let r := ReadString tl
      (b :: r.1, r.2.1, r.2.2)

/-! ## The functions of `krgpg.go` -/

/-- krgpg.go:33 `readLineSplittingFirstToken`; a successful call also yields the reader
after the line. -/
def readLineSplittingFirstToken (reader : List Nat) :
    Except Error (GoString × GoString × List Nat) :=
  match ReadString reader with
  | (_, some err, _) => .error err
  | (line, none, reader1) =>
    match Fields line with
    | [] => .error (Error.Errorf (ascii "no tokens") [])
    | firstToken :: toks => .ok (firstToken, Join toks (ascii " "), reader1)

/-- Modelled from the spec: struct `kr.CommitInfo`, declared outside `krgpg.go`; fields as in
the data model of the spec and the literal at krgpg.go:204. -/
structure CommitInfo where
  Tree : GoString
  Parent : Option GoString
  MergeParents : Option (List GoString)
  Author : GoString
  Committer : GoString
  Message : GoString
  deriving DecidableEq

/-- Modelled from the spec: struct `kr.TagInfo`, declared outside `krgpg.go`; fields as in
the data model of the spec and the literal at krgpg.go:265. -/
structure TagInfo where
  Object : GoString
  /-- Field `Type` of the Go struct. -/
  Type_ : GoString
  Tag : GoString
  Tagger : GoString
  Message : GoString
  deriving DecidableEq

/-- Modelled from the spec: struct `kr.GitSignRequest`, declared outside `krgpg.go`; the
payload (commit or tag) and the user id, as in the literals at krgpg.go:218 and 278. -/
structure GitSignRequest where
  Commit : Option CommitInfo
  Tag : Option TagInfo
  UserId : GoString
  deriving DecidableEq

/-- Modelled from the spec: struct `kr.Request`, declared outside `krgpg.go`; the envelope
with its notification channel name. -/
structure Request where
  NotifyPrefix : GoString
  GitSignRequest : Option GitSignRequest
  deriving DecidableEq

/-- Modelled from the spec: struct `kr.GitSignResponse`, declared outside `krgpg.go`; an
optional signature blob and an optional error tag. -/
structure GitSignResponse where
  Signature : Option GoString
  Error : Option GoString
  deriving DecidableEq

/-- The status line that `requestSignature` writes to the diagnostic stream. -/
inductive StatusLine
  | notPaired
  | daemonUnreachable
  | unknownError (err : Error)
  | rejected
  | success
  deriving DecidableEq

/-- What a call of `requestSignature` does: the status line printed and the two results. -/
structure SignatureResult where
  status : StatusLine
  sig : GitSignResponse
  err : Option Error
  deriving DecidableEq

/-- krgpg.go:300 `requestSignature`; `RequestGitSignature` stands for
`krdclient.RequestGitSignature`, which returns a response and a transport error. In the
`rejected` branch the error is `fmt.Errorf` of the format `\x7b\x7d` with the tag as operand,
and the named result `sig` keeps its zero value. -/
def requestSignature (RequestGitSignature : Request → GitSignResponse × Option Error)
    (request : Request) : SignatureResult :=
  match RequestGitSignature request with
  | (_, some err) =>
    match err with
    | Error.ErrNotPaired => ⟨StatusLine.notPaired, ⟨none, none⟩, some err⟩
    | Error.ErrConnectingToDaemon => ⟨StatusLine.daemonUnreachable, ⟨none, none⟩, some err⟩
    | _ => ⟨StatusLine.unknownError err, ⟨none, none⟩, some err⟩
  | (response, none) =>
    if response.Error = some (ascii "rejected") then
      ⟨StatusLine.rejected, ⟨none, none⟩, some (Error.Errorf (ascii "\x7b\x7d") [ascii "rejected"])⟩
    else
      ⟨StatusLine.success, response, none⟩

/-- How a run of the local `gpg` executable ends. -/
inductive CmdResult
  /-- The command ran and exited with this status. -/
  | exited (status : Nat)
  /-- The command could not be started or its streams could not be copied. -/
  | failed
  deriving DecidableEq

/-- Method `(*exec.Cmd).Run`: `nil` exactly when the command ran and exited with status 0. -/
def CmdResult.Run : CmdResult → Option Error
  | CmdResult.exited 0 => none
  | CmdResult.exited _ => some (Error.Other (ascii "exit status"))
  | CmdResult.failed => some (Error.Other (ascii "exec"))

/-- The collaborators of one run of `krgpg`. -/
structure Env where
  /-- Function `kr.HasGPG()`. -/
  HasGPG : Bool
  /-- Value `os.Args[len(os.Args)-1]`. -/
  UserId : GoString
  /-- Function `kr.NewRequest()`. -/
  NewRequest : Except Error Request
  /-- Function `krdclient.RequestGitSignature`. -/
  RequestGitSignature : Request → GitSignResponse × Option Error
  /-- Method `AsciiArmorSignature` of the response. -/
  AsciiArmorSignature : GitSignResponse → Except Error GoString
  /-- The local `gpg` run with the process arguments on the given standard input. -/
  gpg : List Nat → CmdResult

/-- The object built by the parser. -/
inductive Payload
  | commit (c : CommitInfo)
  | tag (t : TagInfo)
  deriving DecidableEq

/-- What a call of `signGitCommit` or `signGitTag` does. -/
structure SignAttempt where
  /-- The `CommitInfo` or `TagInfo` literal, when execution reaches it. -/
  built : Option Payload
  /-- The request handed to `requestSignature`, when execution reaches it. -/
  sent : Option Request
  /-- Either the error returned, or the bytes written to standard output before
  `os.Exit(0)`. -/
  outcome : Except Error GoString

/-- What the process did when it ends. -/
structure Process where
  exitCode : Nat
  /-- Bytes this process wrote to standard output. -/
  stdout : GoString
  /-- The standard input given to the local `gpg`, when it was run. -/
  gpgStdin : Option (List Nat)
  built : Option Payload
  sent : Option Request
  deriving DecidableEq

/-- krgpg.go:108 `redirectToGPG`: the exit status of the process after running `gpg`. -/
def redirectToGPG (run : CmdResult) : Nat :=
  match run.Run with
  | none => 0
  | some _ => 1

/-- The part of `signGitCommit` and `signGitTag` after the object is built
(krgpg.go:212-237 and 272-297, the same statements in both): request, signature, output.
The logger started at krgpg.go:217 and 277 writes to the diagnostic stream only; it is
modelled on its own as `startLogger`. -/
def signPayload (env : Env) (payload : Payload) (gitSignRequest : GitSignRequest) :
    SignAttempt :=
  match env.NewRequest with
  | .error err => ⟨some payload, none, .error err⟩
  | .ok request0 =>
    let request : Request := { request0 with GitSignRequest := some gitSignRequest }
    let r := requestSignature env.RequestGitSignature request
    match r.err with
    | some err => ⟨some payload, some request, .error err⟩
    | none =>
      match env.AsciiArmorSignature r.sig with
      | .error err => ⟨some payload, some request, .error err⟩
      | .ok sig => ⟨some payload, some request, .ok (sig ++ ascii "\n")⟩

/-- The header loop of `signGitCommit` (krgpg.go:159-187): on success the author, the first
parent, the merge parents and the reader after the `author` line. The first argument bounds
the number of lines read; `none` means the bound was too small. -/
def signGitCommit.headers : Nat → List Nat → Option GoString → Option (List GoString) →
    Option (Except Error (GoString × Option GoString × Option (List GoString) × List Nat))
  | 0, _, _, _ => none
  | fuel + 1, reader, firstParent, mergeParents =>
    match readLineSplittingFirstToken reader with
    | .error err => some (.error err)
    | .ok (tag, contents, reader1) =>
      if tag = ascii "parent" then
        match firstParent with
        | none => signGitCommit.headers fuel reader1 (some contents) mergeParents
        | some _ =>
          signGitCommit.headers fuel reader1 firstParent
            (some (mergeParents.getD [] ++ [contents]))
      else if tag = ascii "author" then
        some (.ok (contents, firstParent, mergeParents, reader1))
      else
        some (.error (Error.Errorf (ascii "unexpected tag: " ++ tag) []))

/-- krgpg.go:155 `signGitCommit`. Every line has at least one byte, so
`reader.length + 1` iterations of the header loop are enough (`signGitCommit.headers_total`);
the first branch is never taken. `ioutil.ReadAll` on the in-memory reader returns the
remaining bytes and no error. -/
def signGitCommit (env : Env) (tree : GoString) (reader : List Nat) : SignAttempt :=
  match signGitCommit.headers (reader.length + 1) reader none none with
  | none => ⟨none, none, .error Error.EOF⟩
  | some (.error err) => ⟨none, none, .error err⟩
  | some (.ok (author, firstParent, mergeParents, reader1)) =>
    match readLineSplittingFirstToken reader1 with
    | .error err => ⟨none, none, .error err⟩
    | .ok (_, committer, reader2) =>
      let message := reader2
      let commit : CommitInfo :=
        { Tree := tree
          Parent := firstParent
          MergeParents := mergeParents
          Author := author
          Committer := committer
          Message := message }
      signPayload env (Payload.commit commit)
        { Commit := some commit, Tag := none, UserId := env.UserId }

/-- krgpg.go:240 `signGitTag`. The leading token of each of the three lines is assigned to
the blank identifier. -/
def signGitTag (env : Env) (object : GoString) (reader : List Nat) : SignAttempt :=
  match readLineSplittingFirstToken reader with
  | .error err => ⟨none, none, .error err⟩
  | .ok (_, type, reader1) =>
    match readLineSplittingFirstToken reader1 with
    | .error err => ⟨none, none, .error err⟩
    | .ok (_, tag, reader2) =>
      match readLineSplittingFirstToken reader2 with
      | .error err => ⟨none, none, .error err⟩
      | .ok (_, tagger, reader3) =>
        let message := reader3
        let tagInfo : TagInfo :=
          { Object := object
            Type_ := type
            Tag := tag
            Tagger := tagger
            Message := message }
        signPayload env (Payload.tag tagInfo)
          { Commit := none, Tag := some tagInfo, UserId := env.UserId }

/-- krgpg.go:121 `signGit`; `stdin` is the result of `ioutil.ReadAll(os.Stdin)`.
`signGitCommit` and `signGitTag` end the process themselves on success, so they only ever
return an error to `signGit`. -/
def signGit (env : Env) (stdin : Except Error (List Nat)) : Process :=
  match stdin with
  | .error _ => ⟨1, [], none, none, none⟩
  | .ok stdinBytes =>
    match readLineSplittingFirstToken stdinBytes with
    | .error _ => ⟨1, [], none, none, none⟩
    | .ok (tag, firstLine, reader) =>
      let attempt : SignAttempt :=
        if tag = ascii "tree" then signGitCommit env firstLine reader
        else if tag = ascii "object" then signGitTag env firstLine reader
        else
          ⟨none, none, .error (Error.Errorf (ascii "error parsing commit tree, wrong tag") [])⟩
      match attempt.outcome with
      | .ok out => ⟨0, out, none, attempt.built, attempt.sent⟩
      | .error _ =>
        if env.HasGPG then
          ⟨redirectToGPG (env.gpg stdinBytes), [], some stdinBytes, attempt.built, attempt.sent⟩
        else ⟨1, [], none, attempt.built, attempt.sent⟩

/-- The loop of the goroutine in `startLogger` (krgpg.go:337-353). `reads` are the results
of the successive calls of `r.Read()`, `printedNotifications` the keys of the map; the
result is the sequence of strings written to the diagnostic stream. -/
def startLogger.loop : List (GoString × Option Error) → List GoString → List GoString
  | [], _ => []
  | (notification, none) :: reads, printedNotifications =>
    if notification ∈ printedNotifications then startLogger.loop reads printedNotifications
    else notification :: startLogger.loop reads (notification :: printedNotifications)
  | (_, some Error.EOF) :: reads, printedNotifications =>
    startLogger.loop reads printedNotifications
  | (_, some _) :: _, _ => []

/-- krgpg.go:327 `startLogger`: what the goroutine prints, given the result of
`kr.OpenNotificationReader` (on success, the results of the reader's `Read` calls). -/
def startLogger (opened : Except Error (List (GoString × Option Error))) : List GoString :=
  match opened with
  | .error _ => []
  | .ok reads => startLogger.loop reads []

/-! ## Vocabulary of the statements -/

/-- The code points of a string, as `range` and `strings.Fields` see them. -/
def chars (s : GoString) : List Nat := (runes s).map Prod.fst

/-- A token: a non-empty string without any white-space character. -/
def Token (t : GoString) : Prop := t ≠ [] ∧ ∀ c ∈ chars t, isSpace c = false

/-- A separator: a string (possibly empty) of white-space characters only. -/
def Blank (s : GoString) : Prop := ∀ c ∈ chars s, isSpace c = true

instance instDecidableToken (t : GoString) : Decidable (Token t) := by
  unfold Token; infer_instance

instance instDecidableBlank (s : GoString) : Decidable (Blank s) := by
  unfold Blank; infer_instance

/-- No leading, no trailing and no two consecutive white-space characters. -/
def NoExtraSpace (s : GoString) : Prop :=
  (∀ c ∈ (chars s).head?, isSpace c = false) ∧
  (∀ c ∈ (chars s).getLast?, isSpace c = false) ∧
  List.Chain' (fun a b => ¬ (isSpace a = true ∧ isSpace b = true)) (chars s)

/-- The text `sep₁ tok₁ sep₂ tok₂ … sepₙ tokₙ sEnd` for a list of (separator, token) pairs. -/
def layoutTail (more : List (GoString × GoString)) (sEnd : GoString) : GoString :=
  (more.map (fun p => p.1 ++ p.2)).flatten ++ sEnd

/-- A line body laid out as: white space `s0`, first token `t0`, then for every pair of
`more` a separator and a token, then the trailing white space `sEnd`. -/
def layout (s0 t0 : GoString) (more : List (GoString × GoString)) (sEnd : GoString) :
    GoString :=
  s0 ++ t0 ++ layoutTail more sEnd

/-- A line as `ReadString` returns it: it ends with a newline and has no other newline. -/
def IsLine (l : GoString) : Prop := l.getLast? = some 10 ∧ 10 ∉ l.dropLast

instance instDecidableIsLine (l : GoString) : Decidable (IsLine l) := by
  unfold IsLine; infer_instance

/-- The first white-space-separated token of a line. -/
def leadingToken (l : GoString) : Option GoString := (Fields l).head?

/-- The remainder of a line: its tokens after the first, joined by single spaces. -/
def remainder (l : GoString) : GoString := Join (Fields l).tail (ascii " ")

/-- A header line with the given leading token. -/
def HeaderLine (kw l : GoString) : Prop := IsLine l ∧ leadingToken l = some kw

instance instDecidableHeaderLine (kw l : GoString) : Decidable (HeaderLine kw l) := by
  unfold HeaderLine; infer_instance

/-- The effect of one `parent` line on the pair (first parent, merge parents) of the header
loop. -/
def parentStep (st : Option GoString × Option (List GoString)) (contents : GoString) :
    Option GoString × Option (List GoString) :=
  match st.1 with
  | none => (some contents, st.2)
  | some _ => (st.1, some (st.2.getD [] ++ [contents]))

/-- A header value in which tokens are separated by single spaces. -/
def SingleSpaced (v : GoString) : Prop :=
  ∃ toks : List GoString, (∀ t ∈ toks, Token t) ∧ v = Join toks (ascii " ")

/-- The object text rebuilt from a `TagInfo` as the spec describes the round trip: the
header lines `object <Object>`, `type <Type>`, `tag <Tag>`, `tagger <Tagger>`, each ended by
a newline, then the message. -/
def TagInfo.text (t : TagInfo) : GoString :=
  ascii "object " ++ t.Object ++ ascii "\n" ++
  (ascii "type " ++ t.Type_ ++ ascii "\n") ++
  (ascii "tag " ++ t.Tag ++ ascii "\n") ++
  (ascii "tagger " ++ t.Tagger ++ ascii "\n") ++ t.Message

/-- The notifications read without error before the first error other than `io.EOF`. -/
def readBeforeError : List (GoString × Option Error) → List GoString
  | [] => []
  | (notification, none) :: reads => notification :: readBeforeError reads
  | (_, some Error.EOF) :: reads => readBeforeError reads
  | (_, some _) :: _ => []

/-- The first occurrence of every element, in order of arrival: the head, then the first
occurrences of the rest that differ from the head. -/
def firstOccurrences : List GoString → List GoString
  | [] => []
  | x :: xs => x :: (firstOccurrences xs).filter (fun y => decide (y ≠ x))

/-- A run in which a local `gpg` is present and exits with status 0, the daemon approves
every request and returns the signature `SIG`. -/
def sampleEnv : Env :=
  { HasGPG := true
    UserId := ascii "me"
    NewRequest := .ok ⟨ascii "krgpg-notify", none⟩
    RequestGitSignature := fun _ => (⟨some (ascii "SIG"), none⟩, none)
    AsciiArmorSignature := fun r =>
      match r.Signature with
      | some s => .ok s
      | none => .error (Error.Other (ascii "no signature"))
    gpg := fun _ => CmdResult.exited 0 }

/-! ## Lemmas -/

theorem first_spec {b sz lo hi : Nat} (h : first b = some (sz, lo, hi)) :
    0xC2 ≤ b ∧ 2 ≤ sz ∧ sz ≤ 4 ∧ 0x80 ≤ lo ∧ hi ≤ 0xBF := by
  unfold first at h
  split_ifs at h <;> simp at h <;> omega

theorem decodeRune_size_pos (s : GoString) (h : s ≠ []) : 1 ≤ (decodeRune s).2 := by
  cases s with
  | nil => exact absurd rfl h
  | cons s0 tl =>
    simp only [decodeRune]
    repeat' split
    all_goals simp

theorem decodeRune_size_le (s : GoString) : (decodeRune s).2 ≤ s.length := by
  cases s with
  | nil => simp [decodeRune]
  | cons s0 tl =>
    simp only [decodeRune]
    repeat' split
    all_goals simp

theorem decodeRune_bytes_ge (s : GoString) (h : 2 ≤ (decodeRune s).2) :
    ∀ x ∈ s.take (decodeRune s).2, 0x80 ≤ x := by
  cases s with
  | nil => simp [decodeRune]
  | cons s0 tl =>
    revert h
    simp only [decodeRune]
    repeat' split
    all_goals simp
    all_goals
      have := first_spec (by assumption)
      omega

theorem decodeRune_of_size_one (s0 : Nat) (tl : GoString) (h0 : s0 < 0x80) :
    decodeRune (s0 :: tl) = (s0, 1) := by
  simp [decodeRune, h0]

theorem decodeRune_append (a b : GoString) (ha : a ≠ [])
    (hb : ∀ x, b.head? = some x → x < 0x80 ∨ 0xBF < x) :
    decodeRune (a ++ b) = decodeRune a := by
  rcases a with _ | ⟨s0, tl⟩
  · exact absurd rfl ha
  · simp only [List.cons_append, decodeRune]
    split_ifs with h0
    · rfl
    · cases hf : first s0 with
      | none => rfl
      | some p =>
        obtain ⟨sz, lo, hi⟩ := p
        have hs := first_spec hf
        simp only []
        rcases tl with _ | ⟨s1, _ | ⟨s2, _ | ⟨s3, rest⟩⟩⟩ <;> rcases b with _ | ⟨b0, b'⟩ <;>
          simp only [List.cons_append, List.nil_append, List.append_nil, List.length_cons,
            List.length_nil, List.head?_cons, Option.some.injEq, forall_eq'] at hb ⊢
        all_goals repeat' split
        all_goals first | rfl | omega

theorem decodeRune_append_of_valid (a b : GoString) (h : (decodeRune a).1 ≠ RuneError) :
    decodeRune (a ++ b) = decodeRune a := by
  rcases a with _ | ⟨s0, tl⟩
  · simp [decodeRune] at h
  · revert h
    simp only [List.cons_append, decodeRune]
    split_ifs with h0
    · intro _; rfl
    · cases hf : first s0 with
      | none => intro h; exact absurd rfl h
      | some p =>
        obtain ⟨sz, lo, hi⟩ := p
        have hs := first_spec hf
        simp only []
        rcases tl with _ | ⟨s1, _ | ⟨s2, _ | ⟨s3, rest⟩⟩⟩ <;> rcases b with _ | ⟨b0, b'⟩ <;>
          simp only [List.cons_append, List.nil_append, List.append_nil, List.length_cons,
            List.length_nil]
        all_goals repeat' split
        all_goals first | (intro _; first | rfl | trivial) | (intro _; omega)

theorem isSpace_RuneError : isSpace RuneError = false := by decide

theorem decodeRune_head_of_valid (s : GoString) (h : (decodeRune s).1 ≠ RuneError) :
    ∀ x, s.head? = some x → x < 0x80 ∨ 0xBF < x := by
  rcases s with _ | ⟨s0, tl⟩
  · simp
  · intro x hx
    simp only [List.head?_cons, Option.some.injEq] at hx
    subst hx
    by_contra hc
    apply h
    have h1 : ¬ s0 < 0x80 := by omega
    have h2 : first s0 = none := by
      unfold first
      split_ifs <;> first | rfl | omega
    simp [decodeRune, h1, h2]

theorem runesFrom_skip (s : GoString) (k : Nat) : runesFrom s k = runes (s.drop k) := by
  induction s generalizing k with
  | nil => simp [runes, runesFrom]
  | cons b tl ih =>
    cases k with
    | zero => simp [runes]
    | succ k => simp [runesFrom, ih]

theorem runes_nil : runes [] = [] := rfl

theorem runes_eq (s : GoString) (h : s ≠ []) :
    runes s = ((decodeRune s).1, s.take (decodeRune s).2) :: runes (s.drop (decodeRune s).2) := by
  cases s with
  | nil => exact absurd rfl h
  | cons b tl =>
    have hp := decodeRune_size_pos (b :: tl) h
    show runesFrom (b :: tl) 0 = _
    simp only [runesFrom, runesFrom_skip]
    obtain ⟨k, hk⟩ : ∃ k, (decodeRune (b :: tl)).2 = k + 1 := ⟨(decodeRune (b :: tl)).2 - 1, by omega⟩
    rw [hk]
    simp

theorem runes_ne_nil (s : GoString) (h : s ≠ []) : runes s ≠ [] := by
  rw [runes_eq s h]; simp

theorem runes_bytes (s : GoString) : ((runes s).map Prod.snd).flatten = s := by
  suffices H : ∀ n (s : GoString), s.length ≤ n → ((runes s).map Prod.snd).flatten = s from
    H _ s le_rfl
  intro n
  induction n with
  | zero =>
    intro s hs
    have : s = [] := List.length_eq_zero.mp (by omega)
    subst this; rfl
  | succ n ih =>
    intro s hs
    by_cases h : s = []
    · subst h; rfl
    · rw [runes_eq s h]
      have hp := decodeRune_size_pos s h
      have hl : (s.drop (decodeRune s).2).length ≤ n := by
        have : s.length ≠ 0 := fun h0 => h (List.length_eq_zero.mp h0)
        simp only [List.length_drop]; omega
      simp only [List.map_cons, List.flatten_cons, ih _ hl, List.take_append_drop]

theorem runes_append_aux (b : GoString)
    (P : GoString → Prop)
    (hP : ∀ a, a ≠ [] → P a → decodeRune (a ++ b) = decodeRune a ∧ P (a.drop (decodeRune a).2)) :
    ∀ n (a : GoString), a.length ≤ n → P a → runes (a ++ b) = runes a ++ runes b := by
  intro n
  induction n with
  | zero =>
    intro a ha _
    have : a = [] := List.length_eq_zero.mp (by omega)
    subst this; rfl
  | succ n ih =>
    intro a ha hPa
    by_cases h : a = []
    · subst h; rfl
    · obtain ⟨hd, hPd⟩ := hP a h hPa
      have hab : a ++ b ≠ [] := by simp [h]
      have hp := decodeRune_size_pos a h
      have hle := decodeRune_size_le a
      have hl : (a.drop (decodeRune a).2).length ≤ n := by
        have : a.length ≠ 0 := fun h0 => h (List.length_eq_zero.mp h0)
        simp only [List.length_drop]; omega
      rw [runes_eq _ hab, runes_eq a h, hd, List.take_append_of_le_length hle,
        List.drop_append_of_le_length hle, ih _ hl hPd]
      rfl

/-- Splitting before a byte that is not a continuation byte splits the code points. -/
theorem runes_append (a b : GoString) (hb : ∀ x, b.head? = some x → x < 0x80 ∨ 0xBF < x) :
    runes (a ++ b) = runes a ++ runes b :=
  runes_append_aux b (fun _ => True)
    (fun a ha _ => ⟨decodeRune_append a b ha hb, trivial⟩) _ a le_rfl trivial

theorem Blank_drop (a : GoString) (ha : a ≠ []) (h : Blank a) :
    isSpace (decodeRune a).1 = true ∧ Blank (a.drop (decodeRune a).2) := by
  unfold Blank chars at h ⊢
  rw [runes_eq a ha] at h
  simp only [List.map_cons, List.mem_cons, forall_eq_or_imp] at h
  exact h

theorem isSpace_valid {r : Nat} (h : isSpace r = true) : r ≠ RuneError := by
  intro hr; subst hr; simp [isSpace_RuneError] at h

/-- Splitting after white space splits the code points. -/
theorem runes_append_of_Blank (a b : GoString) (ha : Blank a) :
    runes (a ++ b) = runes a ++ runes b :=
  runes_append_aux b Blank
    (fun a hne hB => ⟨decodeRune_append_of_valid a b (isSpace_valid (Blank_drop a hne hB).1),
      (Blank_drop a hne hB).2⟩) _ a le_rfl ha

theorem Blank_head (s : GoString) (h : Blank s) :
    ∀ x, s.head? = some x → x < 0x80 ∨ 0xBF < x := by
  by_cases hs : s = []
  · subst hs; simp
  · exact decodeRune_head_of_valid s (isSpace_valid (Blank_drop s hs h).1)

theorem fieldsLoop_space_none {c : Nat} (bs : GoString) (R : List (Nat × GoString))
    (h : isSpace c = true) : fieldsLoop ((c, bs) :: R) none = fieldsLoop R none := by
  simp [fieldsLoop, h]

theorem fieldsLoop_space_some {c : Nat} (bs : GoString) (R : List (Nat × GoString))
    (f : GoString) (h : isSpace c = true) :
    fieldsLoop ((c, bs) :: R) (some f) = f :: fieldsLoop R none := by
  simp [fieldsLoop, h]

theorem fieldsLoop_nonspace {c : Nat} (bs : GoString) (R : List (Nat × GoString))
    (cur : Option GoString) (h : isSpace c = false) :
    fieldsLoop ((c, bs) :: R) cur = fieldsLoop R (some (cur.getD [] ++ bs)) := by
  simp [fieldsLoop, h]

theorem fieldsLoop_spaces (S R : List (Nat × GoString)) (hS : ∀ r ∈ S, isSpace r.1 = true) :
    fieldsLoop (S ++ R) none = fieldsLoop R none := by
  induction S with
  | nil => rfl
  | cons r S ih =>
    obtain ⟨c, bs⟩ := r
    have hc : isSpace c = true := hS (c, bs) (List.mem_cons_self _ _)
    rw [List.cons_append, fieldsLoop_space_none _ _ hc]
    exact ih (fun r hr => hS r (List.mem_cons_of_mem _ hr))

theorem fieldsLoop_nonspaces (T R : List (Nat × GoString)) (f : GoString)
    (hT : ∀ r ∈ T, isSpace r.1 = false) :
    fieldsLoop (T ++ R) (some f) = fieldsLoop R (some (f ++ (T.map Prod.snd).flatten)) := by
  induction T generalizing f with
  | nil => simp
  | cons r T ih =>
    obtain ⟨c, bs⟩ := r
    have hc : isSpace c = false := hT (c, bs) (List.mem_cons_self _ _)
    rw [List.cons_append, fieldsLoop_nonspace _ _ _ hc,
      ih _ (fun r hr => hT r (List.mem_cons_of_mem _ hr))]
    simp

theorem fieldsLoop_nonspaces_none (T R : List (Nat × GoString)) (hne : T ≠ [])
    (hT : ∀ r ∈ T, isSpace r.1 = false) :
    fieldsLoop (T ++ R) none = fieldsLoop R (some ((T.map Prod.snd).flatten)) := by
  cases T with
  | nil => exact absurd rfl hne
  | cons r T =>
    obtain ⟨c, bs⟩ := r
    have hc : isSpace c = false := hT (c, bs) (List.mem_cons_self _ _)
    rw [List.cons_append, fieldsLoop_nonspace _ _ _ hc,
      fieldsLoop_nonspaces _ _ _ (fun r hr => hT r (List.mem_cons_of_mem _ hr))]
    simp

theorem Token_runes {t : GoString} (ht : Token t) :
    runes t ≠ [] ∧ ∀ r ∈ runes t, isSpace r.1 = false := by
  refine ⟨runes_ne_nil t ht.1, fun r hr => ht.2 r.1 ?_⟩
  exact List.mem_map_of_mem _ hr

theorem Blank_runes {s : GoString} (hs : Blank s) : ∀ r ∈ runes s, isSpace r.1 = true :=
  fun r hr => hs r.1 (List.mem_map_of_mem _ hr)

theorem fieldsLoop_token (t X : GoString) (cur : Option GoString) (ht : Token t)
    (hX : ∀ x, X.head? = some x → x < 0x80 ∨ 0xBF < x) :
    fieldsLoop (runes (t ++ X)) cur = fieldsLoop (runes X) (some (cur.getD [] ++ t)) := by
  rw [runes_append t X hX]
  obtain ⟨hne, hns⟩ := Token_runes ht
  cases cur with
  | none => rw [fieldsLoop_nonspaces_none _ _ hne hns, runes_bytes]; rfl
  | some f => rw [fieldsLoop_nonspaces _ _ _ hns, runes_bytes]; rfl

theorem fieldsLoop_blank_none (s X : GoString) (hs : Blank s) :
    fieldsLoop (runes (s ++ X)) none = fieldsLoop (runes X) none := by
  rw [runes_append_of_Blank s X hs, fieldsLoop_spaces _ _ (Blank_runes hs)]

theorem fieldsLoop_blank_some (s X f : GoString) (hs : Blank s) (hne : s ≠ []) :
    fieldsLoop (runes (s ++ X)) (some f) = f :: fieldsLoop (runes X) none := by
  rw [runes_append_of_Blank s X hs]
  have hS := Blank_runes hs
  have hr := runes_ne_nil s hne
  cases hrs : runes s with
  | nil => exact absurd hrs hr
  | cons r S =>
    obtain ⟨c, bs⟩ := r
    rw [hrs] at hS
    have hc : isSpace c = true := hS (c, bs) (List.mem_cons_self _ _)
    rw [List.cons_append, fieldsLoop_space_some _ _ _ hc,
      fieldsLoop_spaces _ _ (fun r hr => hS r (List.mem_cons_of_mem _ hr))]

theorem head?_append_of_ne_nil {α : Type} (a b : List α) (h : a ≠ []) :
    (a ++ b).head? = a.head? := by
  cases a with
  | nil => exact absurd rfl h
  | cons x a => rfl

theorem layoutTail_head (more : List (GoString × GoString)) (sEnd : GoString)
    (hmore : ∀ p ∈ more, Blank p.1 ∧ p.1 ≠ [] ∧ Token p.2) (hEnd : Blank sEnd) :
    ∀ x, (layoutTail more sEnd).head? = some x → x < 0x80 ∨ 0xBF < x := by
  cases more with
  | nil => simpa [layoutTail] using Blank_head sEnd hEnd
  | cons p more =>
    obtain ⟨hb, hne, _⟩ := hmore p (List.mem_cons_self _ _)
    intro x hx
    apply Blank_head p.1 hb
    simpa [layoutTail, List.append_assoc, head?_append_of_ne_nil _ _ hne] using hx

theorem fieldsLoop_layoutTail (more : List (GoString × GoString)) (sEnd f : GoString)
    (hmore : ∀ p ∈ more, Blank p.1 ∧ p.1 ≠ [] ∧ Token p.2) (hEnd : Blank sEnd) :
    fieldsLoop (runes (layoutTail more sEnd)) (some f) = f :: more.map Prod.snd := by
  induction more generalizing f with
  | nil =>
    by_cases hE : sEnd = []
    · subst hE; rfl
    · have := fieldsLoop_blank_some sEnd [] f hEnd hE
      simpa [layoutTail, runes_nil, fieldsLoop] using this
  | cons p more ih =>
    obtain ⟨hb, hne, ht⟩ := hmore p (List.mem_cons_self _ _)
    have hmore' : ∀ p ∈ more, Blank p.1 ∧ p.1 ≠ [] ∧ Token p.2 :=
      fun q hq => hmore q (List.mem_cons_of_mem _ hq)
    have e : layoutTail (p :: more) sEnd = p.1 ++ (p.2 ++ layoutTail more sEnd) := by
      simp [layoutTail, List.append_assoc]
    rw [e, fieldsLoop_blank_some _ _ _ hb hne,
      fieldsLoop_token _ _ _ ht (layoutTail_head more sEnd hmore' hEnd)]
    simp only [Option.getD_none, List.nil_append, List.map_cons]
    rw [ih _ hmore']

/-- The fields of a line laid out as white space, token, (white space, token)*, white space. -/
theorem Fields_layout (s0 t0 : GoString) (more : List (GoString × GoString)) (sEnd : GoString)
    (hs0 : Blank s0) (ht0 : Token t0)
    (hmore : ∀ p ∈ more, Blank p.1 ∧ p.1 ≠ [] ∧ Token p.2) (hEnd : Blank sEnd) :
    Fields (layout s0 t0 more sEnd) = t0 :: more.map Prod.snd := by
  unfold Fields layout
  rw [List.append_assoc, fieldsLoop_blank_none _ _ hs0,
    fieldsLoop_token _ _ _ ht0 (layoutTail_head more sEnd hmore hEnd)]
  simpa using fieldsLoop_layoutTail more sEnd t0 hmore hEnd

theorem ReadString_line (body after : List Nat) (h : 10 ∉ body) :
    ReadString (body ++ 10 :: after) = (body ++ [10], none, after) := by
  induction body with
  | nil => simp [ReadString]
  | cons b body ih =>
    have hb : b ≠ 10 := fun e => h (by simp [e])
    have hbody : 10 ∉ body := fun e => h (List.mem_cons_of_mem _ e)
    simp [ReadString, hb, ih hbody]

theorem ReadString_length (reader line rest : List Nat) (h : ReadString reader = (line, none, rest)) :
    rest.length < reader.length := by
  induction reader generalizing line with
  | nil => simp [ReadString] at h
  | cons b tl ih =>
    simp only [ReadString] at h
    split_ifs at h with hb
    · simp only [Prod.mk.injEq] at h
      obtain ⟨_, _, rfl⟩ := h
      simp
    · simp only [Prod.mk.injEq] at h
      obtain ⟨_, h2, h3⟩ := h
      have := ih (ReadString tl).1 (by rw [← h2, ← h3])
      simp only [List.length_cons]
      omega

theorem nonspace_bytes : ∀ n (t : GoString), t.length ≤ n →
    (∀ c ∈ chars t, isSpace c = false) → ∀ x ∈ t, x < 0x80 → isSpace x = false := by
  intro n
  induction n with
  | zero =>
    intro t ht _ x hx
    have : t = [] := List.length_eq_zero.mp (by omega)
    subst this; simp at hx
  | succ n ih =>
    intro t ht hc x hx hlt
    have hne : t ≠ [] := fun e => by subst e; simp at hx
    unfold chars at hc
    rw [runes_eq t hne] at hc
    simp only [List.map_cons, List.mem_cons, forall_eq_or_imp] at hc
    have hp := decodeRune_size_pos t hne
    have hl : (t.drop (decodeRune t).2).length ≤ n := by
      have : t.length ≠ 0 := fun h0 => hne (List.length_eq_zero.mp h0)
      simp only [List.length_drop]; omega
    rw [← List.take_append_drop (decodeRune t).2 t] at hx
    rcases List.mem_append.mp hx with h1 | h2
    · by_cases h2 : 2 ≤ (decodeRune t).2
      · have := decodeRune_bytes_ge t h2 x h1
        omega
      · have h1' : (decodeRune t).2 = 1 := by omega
        rw [h1'] at h1
        cases t with
        | nil => exact absurd rfl hne
        | cons t0 tl =>
          simp only [List.take_succ_cons, List.take_zero, List.mem_singleton] at h1
          subst h1
          have := hc.1
          rwa [decodeRune_of_size_one x tl hlt] at this
    · exact ih _ hl hc.2 x h2 hlt

theorem Token_newline {t : GoString} (ht : Token t) : 10 ∉ t := by
  intro h
  have := nonspace_bytes _ t le_rfl ht.2 10 h (by norm_num)
  simp [isSpace] at this

theorem fieldsLoop_tokens : ∀ n (u : GoString), u.length ≤ n →
    ∀ (f : GoString) (F : List (Nat × GoString)) (cur : Option GoString),
      (∀ r ∈ F, isSpace r.1 = false) → runes (f ++ u) = F ++ runes u →
      ((cur = none ∧ f = []) ∨ (cur = some f ∧ f ≠ [])) →
      ∀ t ∈ fieldsLoop (runes u) cur, Token t := by
  intro n
  induction n with
  | zero =>
    intro u hu f F cur hF hr hcur t ht
    have : u = [] := List.length_eq_zero.mp (by omega)
    subst this
    rcases hcur with ⟨rfl, rfl⟩ | ⟨rfl, hne⟩
    · simp [runes_nil, fieldsLoop] at ht
    · simp only [runes_nil, fieldsLoop, List.mem_singleton] at ht
      subst ht
      simp only [List.append_nil, runes_nil] at hr
      refine ⟨hne, ?_⟩
      intro c hc
      unfold chars at hc
      rw [hr] at hc
      obtain ⟨r, hr1, rfl⟩ := List.mem_map.mp hc
      exact hF r hr1
  | succ n ih =>
    intro u hu f F cur hF hr hcur t ht
    by_cases hne : u = []
    · subst hne
      rcases hcur with ⟨rfl, rfl⟩ | ⟨rfl, hne⟩
      · simp [runes_nil, fieldsLoop] at ht
      · simp only [runes_nil, fieldsLoop, List.mem_singleton] at ht
        subst ht
        simp only [List.append_nil, runes_nil] at hr
        refine ⟨hne, ?_⟩
        intro c hc
        unfold chars at hc
        rw [hr] at hc
        obtain ⟨r, hr1, rfl⟩ := List.mem_map.mp hc
        exact hF r hr1
    · have hp := decodeRune_size_pos u hne
      have hl : (u.drop (decodeRune u).2).length ≤ n := by
        have : u.length ≠ 0 := fun h0 => hne (List.length_eq_zero.mp h0)
        simp only [List.length_drop]; omega
      have hu' := runes_eq u hne
      rw [hu'] at ht
      by_cases hs : isSpace (decodeRune u).1 = true
      · have hhead := decodeRune_head_of_valid u (isSpace_valid hs)
        have ih0 := ih _ hl [] [] none (by simp) (by simp) (Or.inl ⟨rfl, rfl⟩)
        rcases hcur with ⟨rfl, rfl⟩ | ⟨rfl, hfne⟩
        · rw [fieldsLoop_space_none _ _ hs] at ht
          exact ih0 t ht
        · rw [fieldsLoop_space_some _ _ _ hs] at ht
          rcases List.mem_cons.mp ht with rfl | ht'
          · rw [runes_append _ _ hhead] at hr
            have hr' := List.append_cancel_right hr
            refine ⟨hfne, ?_⟩
            intro c hc
            unfold chars at hc
            rw [hr'] at hc
            obtain ⟨r, hr1, rfl⟩ := List.mem_map.mp hc
            exact hF r hr1
          · exact ih0 t ht'
      · have hs' : isSpace (decodeRune u).1 = false := by simpa using hs
        rw [fieldsLoop_nonspace _ _ _ hs'] at ht
        have hbs : u.take (decodeRune u).2 ≠ [] := by
          intro e
          have := congrArg List.length e
          have hlen : u.length ≠ 0 := fun h0 => hne (List.length_eq_zero.mp h0)
          simp only [List.length_take, List.length_nil] at this
          omega
        have hf : cur.getD [] = f := by
          rcases hcur with ⟨rfl, rfl⟩ | ⟨rfl, _⟩ <;> rfl
        rw [hf] at ht
        refine ih _ hl (f ++ u.take (decodeRune u).2)
          (F ++ [((decodeRune u).1, u.take (decodeRune u).2)]) _ ?_ ?_ (Or.inr ⟨rfl, ?_⟩) t ht
        · intro r hr1
          rcases List.mem_append.mp hr1 with h1 | h1
          · exact hF r h1
          · simp only [List.mem_singleton] at h1; subst h1; exact hs'
        · rw [List.append_assoc, List.take_append_drop, hr, hu']
          simp
        · simp [hbs]

/-- Every field returned by `Fields` is a non-empty string without white space. -/
theorem Fields_tokens (s : GoString) : ∀ t ∈ Fields s, Token t :=
  fieldsLoop_tokens _ s le_rfl [] [] none (by simp) (by simp) (Or.inl ⟨rfl, rfl⟩)

theorem Join_nil (sep : GoString) : Join [] sep = [] := rfl

theorem Join_singleton (t sep : GoString) : Join [t] sep = t := by
  simp [Join, List.intercalate]

theorem Join_cons_cons (t t' : GoString) (ts : List GoString) (sep : GoString) :
    Join (t :: t' :: ts) sep = t ++ (sep ++ Join (t' :: ts) sep) := by
  simp [Join, List.intercalate]

theorem runes_cons_ascii (x : Nat) (X : GoString) (hx : x < 0x80) :
    runes (x :: X) = (x, [x]) :: runes X := by
  rw [runes_eq _ (List.cons_ne_nil _ _), decodeRune_of_size_one x X hx]
  simp

theorem chars_token_space (t X : GoString) :
    chars (t ++ (ascii " " ++ X)) = chars t ++ 32 :: chars X := by
  unfold chars
  have h : ascii " " ++ X = 32 :: X := rfl
  rw [h, runes_append t (32 :: X) (by simp), runes_cons_ascii 32 X (by norm_num)]
  simp

theorem chain_of_nonspace (l : List Nat) (h : ∀ c ∈ l, isSpace c = false) :
    List.Chain' (fun a b => ¬ (isSpace a = true ∧ isSpace b = true)) l := by
  induction l with
  | nil => exact List.chain'_nil
  | cons a l ih =>
    rw [List.chain'_cons']
    refine ⟨?_, ih (fun c hc => h c (List.mem_cons_of_mem _ hc))⟩
    intro y _ hy
    have := h a (List.mem_cons_self _ _)
    rw [this] at hy
    exact absurd hy.1 (by simp)

theorem Token_chars_ne_nil {t : GoString} (ht : Token t) : chars t ≠ [] := by
  unfold chars
  simpa using runes_ne_nil t ht.1

theorem NoExtraSpace_Join_cons (ts : List GoString) :
    ∀ t : GoString, (∀ u ∈ t :: ts, Token u) →
      chars (Join (t :: ts) (ascii " ")) ≠ [] ∧ NoExtraSpace (Join (t :: ts) (ascii " ")) := by
  induction ts with
  | nil =>
    intro t h
    have ht := h t (List.mem_cons_self _ _)
    rw [Join_singleton]
    refine ⟨Token_chars_ne_nil ht, ?_, ?_, chain_of_nonspace _ ht.2⟩
    · intro c hc
      exact ht.2 c (List.mem_of_mem_head? hc)
    · intro c hc
      exact ht.2 c (List.mem_of_mem_getLast? hc)
  | cons t' ts ih =>
    intro t h
    have ht := h t (List.mem_cons_self _ _)
    obtain ⟨hne, hhead⟩ := ih t' (fun u hu => h u (List.mem_cons_of_mem _ hu))
    rw [Join_cons_cons]
    unfold NoExtraSpace at hhead ⊢
    rw [chars_token_space]
    have hA := Token_chars_ne_nil ht
    generalize chars (Join (t' :: ts) (ascii " ")) = B at hne hhead
    obtain ⟨hhead, hlast, hchain⟩ := hhead
    generalize hAe : chars t = A at hA
    have hAll : ∀ c ∈ A, isSpace c = false := by rw [← hAe]; exact ht.2
    refine ⟨by simp, ?_, ?_, ?_⟩
    · intro c hc
      rw [head?_append_of_ne_nil _ _ hA] at hc
      exact hAll c (List.mem_of_mem_head? hc)
    · intro c hc
      have e : A ++ 32 :: B = (A ++ [32]) ++ B := by simp
      rw [e, List.getLast?_append_of_ne_nil _ hne] at hc
      exact hlast c hc
    · rw [List.chain'_append]
      refine ⟨chain_of_nonspace _ hAll, ?_, ?_⟩
      · rw [List.chain'_cons']
        refine ⟨?_, hchain⟩
        intro y hy hsp
        have := hhead y hy
        rw [this] at hsp
        exact absurd hsp.2 (by simp)
      · intro x hx y _ hsp
        have := hAll x (List.mem_of_mem_getLast? hx)
        rw [this] at hsp
        exact absurd hsp.1 (by simp)

/-- Tokens joined by single spaces have no leading, trailing or repeated white space. -/
theorem NoExtraSpace_Join (ts : List GoString) (h : ∀ u ∈ ts, Token u) :
    NoExtraSpace (Join ts (ascii " ")) := by
  cases ts with
  | nil =>
    refine ⟨?_, ?_, ?_⟩ <;> simp [Join_nil, chars, runes_nil]
  | cons t ts => exact (NoExtraSpace_Join_cons ts t h).2

theorem readLine_of_line (body after : List Nat) (tok : GoString) (toks : List GoString)
    (h : 10 ∉ body) (hf : Fields (body ++ [10]) = tok :: toks) :
    readLineSplittingFirstToken (body ++ 10 :: after)
      = .ok (tok, Join toks (ascii " "), after) := by
  simp only [readLineSplittingFirstToken, ReadString_line body after h, hf]

theorem readLine_ok {reader : List Nat} {tok rest reader1 : GoString}
    (h : readLineSplittingFirstToken reader = .ok (tok, rest, reader1)) :
    ∃ line toks, ReadString reader = (line, none, reader1) ∧ Fields line = tok :: toks ∧
      rest = Join toks (ascii " ") := by
  unfold readLineSplittingFirstToken at h
  split at h
  · simp at h
  · rename_i line reader1' heq
    split at h
    · simp at h
    · rename_i firstToken toks hF
      simp only [Except.ok.injEq, Prod.mk.injEq] at h
      obtain ⟨rfl, rfl, rfl⟩ := h
      exact ⟨line, toks, heq, hF, rfl⟩

theorem readLine_length {reader : List Nat} {tok rest reader1 : GoString}
    (h : readLineSplittingFirstToken reader = .ok (tok, rest, reader1)) :
    reader1.length < reader.length := by
  obtain ⟨line, toks, hr, _, _⟩ := readLine_ok h
  exact ReadString_length _ _ _ hr

theorem readLine_normal {reader : List Nat} {tok rest reader1 : GoString}
    (h : readLineSplittingFirstToken reader = .ok (tok, rest, reader1)) :
    Token tok ∧ NoExtraSpace rest := by
  obtain ⟨line, toks, _, hF, rfl⟩ := readLine_ok h
  have hall := Fields_tokens line
  rw [hF] at hall
  exact ⟨hall tok (List.mem_cons_self _ _),
    NoExtraSpace_Join toks (fun u hu => hall u (List.mem_cons_of_mem _ hu))⟩

theorem IsLine_eq {l : GoString} (h : IsLine l) : l = l.dropLast ++ [10] := by
  obtain ⟨h1, _⟩ := h
  have hne : l ≠ [] := by intro e; subst e; simp at h1
  have := List.dropLast_append_getLast hne
  rw [List.getLast?_eq_getLast _ hne] at h1
  simp only [Option.some.injEq] at h1
  rw [h1] at this
  exact this.symm

theorem IsLine_ne_nil {l : GoString} (h : IsLine l) : l ≠ [] := by
  intro e; subst e; simp [IsLine] at h

theorem readLine_header {kw l : GoString} (h : HeaderLine kw l) (after : List Nat) :
    readLineSplittingFirstToken (l ++ after) = .ok (kw, remainder l, after) := by
  obtain ⟨hl, hk⟩ := h
  have e := IsLine_eq hl
  unfold leadingToken at hk
  cases hF : Fields l with
  | nil => rw [hF] at hk; simp at hk
  | cons tok toks =>
    rw [hF] at hk
    simp only [List.head?_cons, Option.some.injEq] at hk
    subst hk
    have h2 : l ++ after = l.dropLast ++ 10 :: after := by
      conv_lhs => rw [e]
      simp
    rw [h2, readLine_of_line _ _ tok toks hl.2 (by rw [← e]; exact hF)]
    simp [remainder, hF]

theorem headers_parents (after authorLine : GoString) (hA : HeaderLine (ascii "author") authorLine) :
    ∀ (parents : List GoString) (fuel : Nat) (fp : Option GoString) (mp : Option (List GoString)),
      parents.length < fuel → (∀ p ∈ parents, HeaderLine (ascii "parent") p) →
      signGitCommit.headers fuel (parents.flatten ++ (authorLine ++ after)) fp mp =
        some (.ok (remainder authorLine,
          ((parents.map remainder).foldl parentStep (fp, mp)).1,
          ((parents.map remainder).foldl parentStep (fp, mp)).2, after)) := by
  intro parents
  induction parents with
  | nil =>
    intro fuel fp mp hfuel _
    obtain ⟨k, rfl⟩ : ∃ k, fuel = k + 1 := ⟨fuel - 1, by simp at hfuel; omega⟩
    have hne : ascii "author" ≠ ascii "parent" := by decide
    simp [signGitCommit.headers, readLine_header hA, hne]
  | cons p ps ih =>
    intro fuel fp mp hfuel hps
    obtain ⟨k, rfl⟩ : ∃ k, fuel = k + 1 := ⟨fuel - 1, by simp at hfuel; omega⟩
    have hp := hps p (List.mem_cons_self _ _)
    have hps' : ∀ q ∈ ps, HeaderLine (ascii "parent") q :=
      fun q hq => hps q (List.mem_cons_of_mem _ hq)
    have hk : ps.length < k := by simp at hfuel; omega
    have e : (p :: ps).flatten ++ (authorLine ++ after)
        = p ++ (ps.flatten ++ (authorLine ++ after)) := by simp
    rw [e]
    simp only [signGitCommit.headers, readLine_header hp, if_true]
    cases fp with
    | none => simp only [ih k _ _ hk hps']; rfl
    | some f => simp only [ih k _ _ hk hps']; rfl

theorem foldl_parentStep_some (cs : List GoString) :
    ∀ (f : GoString) (mp : Option (List GoString)),
      cs.foldl parentStep (some f, mp) = (some f, if cs = [] then mp else some (mp.getD [] ++ cs)) := by
  induction cs with
  | nil => intro f mp; rfl
  | cons c cs ih =>
    intro f mp
    simp only [List.foldl_cons, parentStep, ih]
    by_cases h : cs = []
    · subst h; simp
    · simp [h]

theorem foldl_parentStep (cs : List GoString) :
    cs.foldl parentStep (none, none) =
      (cs.head?, if cs.length ≤ 1 then none else some cs.tail) := by
  cases cs with
  | nil => rfl
  | cons c cs =>
    simp only [List.foldl_cons, parentStep, foldl_parentStep_some]
    cases cs with
    | nil => rfl
    | cons d ds => simp

theorem length_le_flatten (ls : List GoString) (h : ∀ l ∈ ls, l ≠ []) :
    ls.length ≤ ls.flatten.length := by
  induction ls with
  | nil => simp
  | cons l ls ih =>
    have hl := h l (List.mem_cons_self _ _)
    have : l.length ≠ 0 := fun h0 => hl (List.length_eq_zero.mp h0)
    have := ih (fun q hq => h q (List.mem_cons_of_mem _ hq))
    simp only [List.flatten_cons, List.length_append, List.length_cons]
    omega

theorem signPayload_built (env : Env) (payload : Payload) (r : GitSignRequest) :
    (signPayload env payload r).built = some payload := by
  unfold signPayload
  split
  · rfl
  · dsimp only
    split
    · rfl
    · split <;> rfl

theorem signGit_built (env : Env) (stdin tag firstLine reader : List Nat)
    (h : readLineSplittingFirstToken stdin = .ok (tag, firstLine, reader)) :
    (signGit env (.ok stdin)).built =
      (if tag = ascii "tree" then signGitCommit env firstLine reader
       else if tag = ascii "object" then signGitTag env firstLine reader
       else ⟨none, none, .error (Error.Errorf (ascii "error parsing commit tree, wrong tag") [])⟩
        : SignAttempt).built := by
  simp only [signGit, h]
  repeat' split
  all_goals rfl

theorem signGitCommit.headers_total :
    ∀ (fuel : Nat) (reader : List Nat) (fp : Option GoString) (mp : Option (List GoString)),
      reader.length < fuel → (signGitCommit.headers fuel reader fp mp).isSome = true := by
  intro fuel
  induction fuel with
  | zero => intro reader _ _ h; simp at h
  | succ k ih =>
    intro reader fp mp h
    unfold signGitCommit.headers
    split
    · rfl
    · rename_i tag contents reader1 heq
      have hl := readLine_length heq
      have hk : reader1.length < k := by omega
      split_ifs
      · split
        · exact ih _ _ _ hk
        · exact ih _ _ _ hk
      · rfl
      · rfl

theorem space_Join_eq (ts : List GoString) (t : GoString) :
    ascii " " ++ Join (t :: ts) (ascii " ")
      = ((t :: ts).map (fun u => ascii " " ++ u)).flatten := by
  induction ts generalizing t with
  | nil => simp [Join_singleton]
  | cons t' ts ih =>
    rw [Join_cons_cons, ih t']
    simp

theorem newline_not_mem_Join (ts : List GoString) (h : ∀ t ∈ ts, Token t) :
    10 ∉ Join ts (ascii " ") := by
  induction ts with
  | nil => simp [Join_nil]
  | cons t ts ih =>
    have ht := Token_newline (h t (List.mem_cons_self _ _))
    have hts := ih (fun u hu => h u (List.mem_cons_of_mem _ hu))
    cases ts with
    | nil => rwa [Join_singleton]
    | cons t' ts =>
      rw [Join_cons_cons]
      simp only [List.mem_append, not_or]
      refine ⟨ht, ?_, hts⟩
      decide

theorem Blank_space : Blank (ascii " ") := by decide
theorem Blank_nil : Blank [] := by decide
theorem Blank_newline : Blank [10] := by decide

theorem Blank_append {a b : GoString} (ha : Blank a) (hb : Blank b) : Blank (a ++ b) := by
  unfold Blank chars at *
  rw [runes_append_of_Blank a b ha]
  intro c hc
  simp only [List.map_append, List.mem_append] at hc
  rcases hc with h | h
  · exact ha c h
  · exact hb c h

theorem newline_not_mem_single_spaced (kw : GoString) (toks : List GoString)
    (hkw : Token kw) (htoks : ∀ t ∈ toks, Token t) :
    10 ∉ kw ++ ascii " " ++ Join toks (ascii " ") := by
  simp only [List.mem_append, not_or]
  exact ⟨⟨Token_newline hkw, by decide⟩, newline_not_mem_Join toks htoks⟩

/-- The fields of a header line written as keyword, one space, single-spaced value. -/
theorem Fields_single_spaced (kw : GoString) (toks : List GoString)
    (hkw : Token kw) (htoks : ∀ t ∈ toks, Token t) :
    Fields ((kw ++ ascii " " ++ Join toks (ascii " ")) ++ [10]) = kw :: toks := by
  cases toks with
  | nil =>
    have := Fields_layout [] kw [] (ascii " " ++ [10]) Blank_nil hkw (by simp)
      (Blank_append Blank_space Blank_newline)
    simpa [layout, layoutTail, Join_nil] using this
  | cons t ts =>
    have := Fields_layout [] kw ((t :: ts).map (fun u => (ascii " ", u))) [10] Blank_nil hkw
      (by
        intro p hp
        obtain ⟨u, hu, rfl⟩ := List.mem_map.mp hp
        exact ⟨Blank_space, List.cons_ne_nil _ _, htoks u hu⟩)
      Blank_newline
    simp only [layout, layoutTail, List.nil_append, List.map_map, Function.comp_def,
      ← space_Join_eq] at this
    simpa using this

/-- Reading a header line written as keyword, one space, single-spaced value, newline. -/
theorem readLine_single_spaced (kw v after : GoString) (hkw : Token kw) (hv : SingleSpaced v) :
    readLineSplittingFirstToken (kw ++ ascii " " ++ v ++ ascii "\n" ++ after)
      = .ok (kw, v, after) := by
  obtain ⟨toks, htoks, rfl⟩ := hv
  have e : kw ++ ascii " " ++ Join toks (ascii " ") ++ ascii "\n" ++ after
      = (kw ++ ascii " " ++ Join toks (ascii " ")) ++ 10 :: after := by
    simp [ascii]
  rw [e]
  exact readLine_of_line _ _ _ _ (newline_not_mem_single_spaced kw toks hkw htoks)
    (Fields_single_spaced kw toks hkw htoks)

/-- A header line written as keyword, one space, single-spaced value, newline has that
keyword as leading token and that value as remainder. -/
theorem HeaderLine_single_spaced (kw v : GoString) (hkw : Token kw) (hv : SingleSpaced v) :
    HeaderLine kw (kw ++ ascii " " ++ v ++ ascii "\n")
      ∧ remainder (kw ++ ascii " " ++ v ++ ascii "\n") = v := by
  obtain ⟨toks, htoks, rfl⟩ := hv
  have hF := Fields_single_spaced kw toks hkw htoks
  have h10 := newline_not_mem_single_spaced kw toks hkw htoks
  have e : ascii "\n" = [10] := rfl
  rw [e]
  refine ⟨⟨⟨?_, ?_⟩, ?_⟩, ?_⟩
  · simp
  · simpa using h10
  · unfold leadingToken; rw [hF]; rfl
  · unfold remainder; rw [hF]; rfl

theorem notin_layout (s0 t0 : GoString) (more : List (GoString × GoString)) (sEnd : GoString)
    (ht0 : Token t0) (hmore : ∀ p ∈ more, Blank p.1 ∧ p.1 ≠ [] ∧ Token p.2)
    (hnl : 10 ∉ s0 ∧ (∀ p ∈ more, 10 ∉ p.1) ∧ 10 ∉ sEnd) :
    10 ∉ layout s0 t0 more sEnd := by
  obtain ⟨h0, hm, hE⟩ := hnl
  unfold layout layoutTail
  simp only [List.mem_append, List.mem_flatten, List.mem_map, not_or, not_exists, not_and]
  refine ⟨⟨h0, Token_newline ht0⟩, ?_, hE⟩
  rintro l ⟨p, hp, rfl⟩ hmem
  rcases List.mem_append.mp hmem with h | h
  · exact hm p hp h
  · exact Token_newline (hmore p hp).2.2 h

theorem readLine_layout
    (s0 t0 : GoString) (more : List (GoString × GoString)) (sEnd after : GoString)
    (hs0 : Blank s0) (ht0 : Token t0)
    (hmore : ∀ p ∈ more, Blank p.1 ∧ p.1 ≠ [] ∧ Token p.2) (hEnd : Blank sEnd)
    (hnl : 10 ∉ s0 ∧ (∀ p ∈ more, 10 ∉ p.1) ∧ 10 ∉ sEnd) :
    readLineSplittingFirstToken (layout s0 t0 more sEnd ++ ascii "\n" ++ after)
        = .ok (t0, Join (more.map Prod.snd) (ascii " "), after) := by
  have e : layout s0 t0 more sEnd ++ ascii "\n" ++ after
      = layout s0 t0 more sEnd ++ 10 :: after := by simp [ascii]
  rw [e]
  apply readLine_of_line _ _ _ _ (notin_layout s0 t0 more sEnd ht0 hmore hnl)
  have e2 : layout s0 t0 more sEnd ++ [10] = layout s0 t0 more (sEnd ++ [10]) := by
    simp [layout, layoutTail]
  rw [e2]
  exact Fields_layout s0 t0 more _ hs0 ht0 hmore (Blank_append hEnd Blank_newline)

theorem loop_eq_filter (reads : List (GoString × Option Error)) :
    ∀ printed : List GoString,
      startLogger.loop reads printed
        = (firstOccurrences (readBeforeError reads)).filter (fun m => decide (m ∉ printed)) := by
  induction reads with
  | nil => intro printed; rfl
  | cons r reads ih =>
    intro printed
    obtain ⟨n, e⟩ := r
    cases e with
    | none =>
      simp only [startLogger.loop, readBeforeError, firstOccurrences]
      by_cases h : n ∈ printed
      · simp only [h, if_true, ih, List.filter_cons, not_true_eq_false, decide_False,
          List.filter_filter]
        simp only [Bool.false_eq_true, if_false]
        congr 1
        funext m
        by_cases hm : m = n
        · subst hm; simp [h]
        · simp [hm]
      · simp only [h, if_false, ih, List.filter_cons, not_false_eq_true, decide_True,
          List.filter_filter, if_true]
        congr 2
        funext m
        simp only [List.mem_cons, not_or, ne_eq, Bool.decide_and, Bool.and_comm]
    | some err =>
      cases err <;> simp [startLogger.loop, readBeforeError, firstOccurrences, ih]

theorem firstOccurrences_mem (l : List GoString) : ∀ m, m ∈ firstOccurrences l ↔ m ∈ l := by
  induction l with
  | nil => intro m; simp [firstOccurrences]
  | cons x xs ih =>
    intro m
    simp only [firstOccurrences, List.mem_cons, List.mem_filter, ih, decide_eq_true_eq]
    by_cases h : m = x <;> simp [h]

theorem firstOccurrences_nodup (l : List GoString) : (firstOccurrences l).Nodup := by
  induction l with
  | nil => simp [firstOccurrences]
  | cons x xs ih =>
    simp only [firstOccurrences, List.nodup_cons, List.mem_filter, decide_eq_true_eq]
    exact ⟨fun h => h.2 rfl, ih.filter _⟩

theorem firstOccurrences_sublist (l : List GoString) : (firstOccurrences l).Sublist l := by
  induction l with
  | nil => simp [firstOccurrences]
  | cons x xs ih =>
    simp only [firstOccurrences]
    exact ((List.filter_sublist _).trans ih).cons₂ x

theorem decodeRune_take_aux (s : GoString) (r n : Nat) (h : decodeRune s = (r, n)) :
    decodeRune (s.take n) = (r, n) := by
  rcases s with _ | ⟨s0, tl⟩
  · simp [decodeRune] at h
    obtain ⟨rfl, rfl⟩ := h
    rfl
  · simp only [decodeRune] at h
    split_ifs at h with h0
    · simp only [Prod.mk.injEq] at h
      obtain ⟨rfl, rfl⟩ := h
      simp [decodeRune, h0]
    · cases hf : first s0 with
      | none =>
        rw [hf] at h
        simp only [Prod.mk.injEq] at h
        obtain ⟨rfl, rfl⟩ := h
        simp [decodeRune, h0, hf]
      | some p =>
        obtain ⟨sz, lo, hi⟩ := p
        have hs := first_spec hf
        rw [hf] at h
        simp only [] at h
        rcases tl with _ | ⟨s1, _ | ⟨s2, _ | ⟨s3, rest⟩⟩⟩ <;>
          simp only [List.length_cons, List.length_nil] at h
        all_goals repeat' (split at h)
        all_goals
          simp only [Prod.mk.injEq] at h
          obtain ⟨rfl, rfl⟩ := h
          simp only [List.take_succ_cons, List.take_zero, List.take_nil, decodeRune, h0, hf,
            if_false, List.length_cons, List.length_nil]
        all_goals first | rfl | (split_ifs <;> first | rfl | omega)

theorem decodeRune_take (s : GoString) :
    decodeRune (s.take (decodeRune s).2) = decodeRune s := by
  generalize h : decodeRune s = d
  obtain ⟨r, n⟩ := d
  exact decodeRune_take_aux s r n h

/-- The bytes of the first code point of a string decode to that code point alone. -/
theorem runes_first (s : GoString) (hs : s ≠ []) :
    runes (s.take (decodeRune s).2) = [((decodeRune s).1, s.take (decodeRune s).2)] := by
  have hp := decodeRune_size_pos s hs
  have hle := decodeRune_size_le s
  have hd := decodeRune_take s
  have hlen : (s.take (decodeRune s).2).length = (decodeRune s).2 := by
    simp only [List.length_take]; omega
  have hne : s.take (decodeRune s).2 ≠ [] := by
    intro e; rw [e] at hlen; simp at hlen; omega
  rw [runes_eq _ hne, hd]
  have h1 : (s.take (decodeRune s).2).take (decodeRune s).2 = s.take (decodeRune s).2 := by
    simp
  have h2 : (s.take (decodeRune s).2).drop (decodeRune s).2 = [] := by
    apply List.drop_eq_nil_of_le; omega
  simp only [h1, h2, runes_nil]

theorem Blank_Fields {s : GoString} (h : Blank s) : Fields s = [] := by
  have := fieldsLoop_spaces (runes s) [] (Blank_runes h)
  simpa [Fields, fieldsLoop] using this

theorem layout_exists : ∀ n (s : GoString), s.length ≤ n →
    Blank s ∨ ∃ (s0 t0 : GoString) (more : List (GoString × GoString)) (sEnd : GoString),
      Blank s0 ∧ Token t0 ∧ (∀ p ∈ more, Blank p.1 ∧ p.1 ≠ [] ∧ Token p.2) ∧ Blank sEnd ∧
        s = layout s0 t0 more sEnd := by
  intro n
  induction n with
  | zero =>
    intro s hs
    have : s = [] := List.length_eq_zero.mp (by omega)
    subst this
    exact Or.inl Blank_nil
  | succ n ih =>
    intro s hs
    by_cases hne : s = []
    · subst hne; exact Or.inl Blank_nil
    · have hp := decodeRune_size_pos s hne
      have hl : (s.drop (decodeRune s).2).length ≤ n := by
        have : s.length ≠ 0 := fun h0 => hne (List.length_eq_zero.mp h0)
        simp only [List.length_drop]; omega
      have hsplit : s = s.take (decodeRune s).2 ++ s.drop (decodeRune s).2 :=
        (List.take_append_drop _ _).symm
      have hfirst := runes_first s hne
      generalize hb : s.take (decodeRune s).2 = b at hsplit hfirst
      generalize hs' : s.drop (decodeRune s).2 = s' at hsplit hl
      have hbne : b ≠ [] := by
        intro e; rw [e, runes_nil] at hfirst; simp at hfirst
      by_cases hsp : isSpace (decodeRune s).1 = true
      · have hB : Blank b := by
          intro c hc
          unfold chars at hc
          rw [hfirst] at hc
          simp only [List.map_cons, List.map_nil, List.mem_singleton] at hc
          subst hc; exact hsp
        rcases ih s' hl with hbl | ⟨s0, t0, more, sEnd, h0, ht, hm, hE, rfl⟩
        · left; rw [hsplit]; exact Blank_append hB hbl
        · right
          refine ⟨b ++ s0, t0, more, sEnd, Blank_append hB h0, ht, hm, hE, ?_⟩
          rw [hsplit]; simp [layout]
      · have hsp' : isSpace (decodeRune s).1 = false := by simpa using hsp
        have hT : Token b := by
          refine ⟨hbne, ?_⟩
          intro c hc
          unfold chars at hc
          rw [hfirst] at hc
          simp only [List.map_cons, List.map_nil, List.mem_singleton] at hc
          subst hc; exact hsp'
        right
        rcases ih s' hl with hbl | ⟨s0, t0, more, sEnd, h0, ht, hm, hE, rfl⟩
        · refine ⟨[], b, [], s', Blank_nil, hT, by simp, hbl, ?_⟩
          rw [hsplit]; simp [layout, layoutTail]
        · by_cases hs0 : s0 = []
          · subst hs0
            refine ⟨[], b ++ t0, more, sEnd, Blank_nil, ?_, hm, hE, ?_⟩
            · refine ⟨by simp [hbne], ?_⟩
              have hX := layoutTail_head more sEnd hm hE
              have e1 : s = (b ++ t0) ++ layoutTail more sEnd := by
                rw [hsplit]; simp [layout]
              have r1 : runes s = runes (b ++ t0) ++ runes (layoutTail more sEnd) := by
                rw [e1]; exact runes_append _ _ hX
              have r2 : runes s = ((decodeRune s).1, b) ::
                  (runes t0 ++ runes (layoutTail more sEnd)) := by
                rw [runes_eq s hne, hb, hs']
                have : layout [] t0 more sEnd = t0 ++ layoutTail more sEnd := by simp [layout]
                rw [this, runes_append _ _ hX]
              have r3 : runes (b ++ t0) = ((decodeRune s).1, b) :: runes t0 := by
                have h12 : runes (b ++ t0) ++ runes (layoutTail more sEnd)
                    = (((decodeRune s).1, b) :: runes t0) ++ runes (layoutTail more sEnd) := by
                  rw [← r1, r2]; simp
                exact List.append_cancel_right h12
              intro c hc
              unfold chars at hc
              rw [r3] at hc
              simp only [List.map_cons, List.mem_cons] at hc
              rcases hc with rfl | hc
              · exact hsp'
              · exact ht.2 c hc
            · rw [hsplit]; simp [layout]
          · refine ⟨[], b, (s0, t0) :: more, sEnd, Blank_nil, hT, ?_, hE, ?_⟩
            · intro p hp
              rcases List.mem_cons.mp hp with rfl | hp
              · exact ⟨h0, hs0, ht⟩
              · exact hm p hp
            · rw [hsplit]; simp [layout, layoutTail]

theorem ReadString_ok (reader line reader1 : List Nat)
    (h : ReadString reader = (line, none, reader1)) :
    ∃ body, line = body ++ [10] ∧ 10 ∉ body ∧ reader = body ++ 10 :: reader1 := by
  induction reader generalizing line with
  | nil => simp [ReadString] at h
  | cons b tl ih =>
    simp only [ReadString] at h
    split_ifs at h with hb
    · simp only [Prod.mk.injEq] at h
      obtain ⟨rfl, _, rfl⟩ := h
      exact ⟨[], rfl, by simp, by simp [hb]⟩
    · simp only [Prod.mk.injEq] at h
      obtain ⟨h1, h2, h3⟩ := h
      obtain ⟨body, hb1, hb2, hb3⟩ := ih (ReadString tl).1 (by rw [← h2, ← h3])
      refine ⟨b :: body, ?_, ?_, ?_⟩
      · rw [← h1, hb1]; rfl
      · simp only [List.mem_cons, not_or]
        exact ⟨fun e => hb e.symm, hb2⟩
      · rw [hb3]; rfl

theorem Blank_of_append_newline {s : GoString} (h : Blank (s ++ [10])) : Blank s := by
  unfold Blank chars at *
  rw [runes_append s [10] (by simp)] at h
  intro c hc
  exact h c (by simp only [List.map_append, List.mem_append]; exact Or.inl hc)

/-- Every input accepted by `readLineSplittingFirstToken` starts with a line laid out as
white space, token, (white space, token)*, white space, newline. -/
theorem readLine_layout_exists {reader : List Nat} {tok rest reader1 : GoString}
    (h : readLineSplittingFirstToken reader = .ok (tok, rest, reader1)) :
    ∃ (s0 : GoString) (more : List (GoString × GoString)) (sEnd : GoString),
      Blank s0 ∧ (∀ p ∈ more, Blank p.1 ∧ p.1 ≠ [] ∧ Token p.2) ∧ Blank sEnd ∧
      (10 ∉ s0 ∧ (∀ p ∈ more, 10 ∉ p.1) ∧ 10 ∉ sEnd) ∧
      reader = layout s0 tok more sEnd ++ ascii "\n" ++ reader1 ∧
      rest = Join (more.map Prod.snd) (ascii " ") := by
  obtain ⟨line, toks, hr, hF, rfl⟩ := readLine_ok h
  obtain ⟨body, rfl, h10, rfl⟩ := ReadString_ok _ _ _ hr
  rcases layout_exists _ body le_rfl with hbl | ⟨s0, t0, more, sEnd, h0, ht, hm, hE, rfl⟩
  · have := Blank_Fields (Blank_append hbl Blank_newline)
    rw [this] at hF
    simp at hF
  · have e2 : layout s0 t0 more sEnd ++ [10] = layout s0 t0 more (sEnd ++ [10]) := by
      simp [layout, layoutTail]
    rw [e2, Fields_layout s0 t0 more _ h0 ht hm (Blank_append hE Blank_newline)] at hF
    simp only [List.cons.injEq] at hF
    obtain ⟨rfl, rfl⟩ := hF
    refine ⟨s0, more, sEnd, h0, hm, hE, ⟨?_, ?_, ?_⟩, ?_, rfl⟩
    · intro hmem; exact h10 (by simp [layout, hmem])
    · intro p hp hmem
      apply h10
      simp only [layout, layoutTail, List.mem_append, List.mem_flatten, List.mem_map]
      exact Or.inr (Or.inl ⟨p.1 ++ p.2, ⟨p, hp, rfl⟩, List.mem_append.mpr (Or.inl hmem)⟩)
    · intro hmem; exact h10 (by simp [layout, layoutTail, hmem])
    · simp [ascii]

theorem ReadString_of_IsLine {l : GoString} (h : IsLine l) (after : List Nat) :
    ReadString (l ++ after) = (l, none, after) := by
  have e := IsLine_eq h
  have h2 : l ++ after = l.dropLast ++ 10 :: after := by
    conv_lhs => rw [e]
    simp
  rw [h2, ReadString_line _ _ h.2, ← e]

/-- A text has one way only of starting with a line. -/
theorem line_append_inj {l l' r r' : GoString} (hl : IsLine l) (hl' : IsLine l')
    (h : l ++ r = l' ++ r') : l = l' ∧ r = r' := by
  have h1 := ReadString_of_IsLine hl r
  have h2 := ReadString_of_IsLine hl' r'
  rw [h, h2] at h1
  simp only [Prod.mk.injEq, true_and] at h1
  exact ⟨h1.1.symm, h1.2.symm⟩

theorem newline_not_mem_remainder (l : GoString) : 10 ∉ remainder l := by
  unfold remainder
  apply newline_not_mem_Join
  intro t ht
  exact Fields_tokens l t (List.mem_of_mem_tail ht)

/-- The header line rebuilt from a keyword and the remainder of a line is a line. -/
theorem IsLine_rebuilt (kw l : GoString) (hkw : 10 ∉ kw) :
    IsLine (kw ++ remainder l ++ ascii "\n") := by
  have e : ascii "\n" = [10] := rfl
  rw [e]
  refine ⟨by simp, ?_⟩
  simp only [List.dropLast_concat, List.mem_append, not_or]
  exact ⟨hkw, newline_not_mem_remainder l⟩

theorem signGitTag_built (env : Env) (object : GoString) (r0 : List Nat)
    (t1 v1 r1 t2 v2 r2 t3 v3 r3 : GoString)
    (h1 : readLineSplittingFirstToken r0 = .ok (t1, v1, r1))
    (h2 : readLineSplittingFirstToken r1 = .ok (t2, v2, r2))
    (h3 : readLineSplittingFirstToken r2 = .ok (t3, v3, r3)) :
    (signGitTag env object r0).built
      = some (Payload.tag
          { Object := object, Type_ := v1, Tag := v2, Tagger := v3, Message := r3 }) := by
  simp only [signGitTag, h1, h2, h3, signPayload_built]

theorem loop_stop (pre post : List (GoString × Option Error)) (n : GoString) (e : Error)
    (he : e ≠ Error.EOF) :
    ∀ printed, startLogger.loop (pre ++ (n, some e) :: post) printed
      = startLogger.loop pre printed := by
  induction pre with
  | nil =>
    intro printed
    cases e with
    | EOF => exact absurd rfl he
    | _ => simp [startLogger.loop]
  | cons r pre ih =>
    intro printed
    obtain ⟨m, err⟩ := r
    cases err with
    | none =>
      simp only [List.cons_append, startLogger.loop, List.append_eq, ih]
    | some err =>
      cases err <;> simp [startLogger.loop, ih]

/-! ## Properties of the specification -/

/-- C1: for every commit object text made of a `tree` line, any number of `parent` lines, an
`author` line, a `committer` line and arbitrary remaining bytes, `signGit` builds the
`CommitInfo` whose `Tree` is the remainder of the first line, whose `Parent` is absent
without parent lines and is the first parent value otherwise, whose `MergeParents` is absent
for at most one parent line and otherwise holds the other parent values in their order,
whose `Author` and `Committer` are the remainders of their lines, and whose `Message` is
exactly the bytes after the `committer` line. The remainder of a line is what
`readLineSplittingFirstToken` returns for it: the tokens after the first joined by single
spaces; for a line written `<keyword> <value>` with a single-spaced value it is the value
itself. -/
theorem signGit_commit (env : Env) (treeLine : GoString) (parents : List GoString)
    (authorLine committerLine message : GoString)
    (hTree : HeaderLine (ascii "tree") treeLine)
    (hParents : ∀ p ∈ parents, HeaderLine (ascii "parent") p)
    (hAuthor : HeaderLine (ascii "author") authorLine)
    (hCommitter : HeaderLine (ascii "committer") committerLine) :
    (signGit env
        (.ok (treeLine ++ parents.flatten ++ authorLine ++ committerLine ++ message))).built
      = some (Payload.commit
          { Tree := remainder treeLine
            Parent := (parents.map remainder).head?
            MergeParents :=
              if parents.length ≤ 1 then none else some (parents.map remainder).tail
            Author := remainder authorLine
            Committer := remainder committerLine
            Message := message })
    ∧ ∀ kw v : GoString, Token kw → SingleSpaced v →
        HeaderLine kw (kw ++ ascii " " ++ v ++ ascii "\n")
          ∧ remainder (kw ++ ascii " " ++ v ++ ascii "\n") = v := by
  refine ⟨?_, fun kw v hkw hv => HeaderLine_single_spaced kw v hkw hv⟩
  have e : treeLine ++ parents.flatten ++ authorLine ++ committerLine ++ message
      = treeLine ++ (parents.flatten ++ (authorLine ++ (committerLine ++ message))) := by
    simp
  rw [e, signGit_built env _ _ _ _ (readLine_header hTree _)]
  simp only [if_true]
  have hlen : parents.length
      < (parents.flatten ++ (authorLine ++ (committerLine ++ message))).length + 1 := by
    have := length_le_flatten parents (fun l hl => IsLine_ne_nil (hParents l hl).1)
    simp only [List.length_append]
    omega
  unfold signGitCommit
  rw [headers_parents _ _ hAuthor parents _ none none hlen hParents]
  simp only [readLine_header hCommitter, signPayload_built, foldl_parentStep, List.length_map]

/-- Witness of C1: a commit with three parents, a blank line and a message. -/
theorem signGit_commit_witness :
    (signGit sampleEnv
        (.ok (ascii
          "tree abc123\nparent def456\nparent 0a\nparent 0b\nauthor A <a@x>\ncommitter B <b@x>\n\nmsg\n"))).built
      = some (Payload.commit
          { Tree := ascii "abc123"
            Parent := some (ascii "def456")
            MergeParents := some [ascii "0a", ascii "0b"]
            Author := ascii "A <a@x>"
            Committer := ascii "B <b@x>"
            Message := ascii "\nmsg\n" }) :=
  (signGit_commit sampleEnv (ascii "tree abc123\n")
    [ascii "parent def456\n", ascii "parent 0a\n", ascii "parent 0b\n"]
    (ascii "author A <a@x>\n") (ascii "committer B <b@x>\n") (ascii "\nmsg\n")
    (by decide) (by decide) (by decide) (by decide)).1

/-- Counterexample to C2 as stated: in a tag object whose tagger name has two spaces
between its words, the `Tagger` field holds the value with a single space, and the text
rebuilt from the `TagInfo` differs from the input. -/
theorem signGit_tag_not_verbatim :
    (signGit sampleEnv
        (.ok (ascii
          "object 0123456789abcdef0123456789abcdef01234567\ntype commit\ntag v1.0\ntagger Ann  Lee <ann@example.com> 1500000000 +0000\n\nrelease\n"))).built
      = some (Payload.tag
          { Object := ascii "0123456789abcdef0123456789abcdef01234567"
            Type_ := ascii "commit"
            Tag := ascii "v1.0"
            Tagger := ascii "Ann Lee <ann@example.com> 1500000000 +0000"
            Message := ascii "\nrelease\n" })
    ∧ TagInfo.text
          { Object := ascii "0123456789abcdef0123456789abcdef01234567"
            Type_ := ascii "commit"
            Tag := ascii "v1.0"
            Tagger := ascii "Ann Lee <ann@example.com> 1500000000 +0000"
            Message := ascii "\nrelease\n" }
        ≠ ascii
          "object 0123456789abcdef0123456789abcdef01234567\ntype commit\ntag v1.0\ntagger Ann  Lee <ann@example.com> 1500000000 +0000\n\nrelease\n" := by
  decide

/-- C2, amended: for every well-formed tag object text (an `object` line, a `type` line, a
`tag` line, a `tagger` line, then arbitrary bytes), `signGit` builds the `TagInfo` whose
`Object`, `Type`, `Tag` and `Tagger` are the remainders of the four header lines (their
tokens after the first, joined by single spaces) and whose `Message` is exactly the remaining
bytes. The header lines rebuilt from it followed by the message are the input byte for byte
exactly when every header line is written keyword, one space, its remainder, newline; a
header line written keyword, one space, value, newline with a single-spaced value is such a
line, and its field is the value verbatim. -/
theorem signGit_tag_roundtrip (env : Env)
    (objectLine typeLine tagLine taggerLine message : GoString)
    (hObject : HeaderLine (ascii "object") objectLine)
    (hType : HeaderLine (ascii "type") typeLine)
    (hTag : HeaderLine (ascii "tag") tagLine)
    (hTagger : HeaderLine (ascii "tagger") taggerLine) :
    (signGit env
        (.ok (objectLine ++ typeLine ++ tagLine ++ taggerLine ++ message))).built
      = some (Payload.tag
          { Object := remainder objectLine
            Type_ := remainder typeLine
            Tag := remainder tagLine
            Tagger := remainder taggerLine
            Message := message })
    ∧ (TagInfo.text
          { Object := remainder objectLine
            Type_ := remainder typeLine
            Tag := remainder tagLine
            Tagger := remainder taggerLine
            Message := message }
        = objectLine ++ typeLine ++ tagLine ++ taggerLine ++ message
      ↔ objectLine = ascii "object " ++ remainder objectLine ++ ascii "\n"
        ∧ typeLine = ascii "type " ++ remainder typeLine ++ ascii "\n"
        ∧ tagLine = ascii "tag " ++ remainder tagLine ++ ascii "\n"
        ∧ taggerLine = ascii "tagger " ++ remainder taggerLine ++ ascii "\n")
    ∧ ∀ kw v : GoString, Token kw → SingleSpaced v →
        HeaderLine kw (kw ++ ascii " " ++ v ++ ascii "\n")
          ∧ remainder (kw ++ ascii " " ++ v ++ ascii "\n") = v := by
  refine ⟨?_, ?_, fun kw v hkw hv => HeaderLine_single_spaced kw v hkw hv⟩
  · have e : objectLine ++ typeLine ++ tagLine ++ taggerLine ++ message
        = objectLine ++ (typeLine ++ (tagLine ++ (taggerLine ++ message))) := by
      simp
    rw [e, signGit_built env _ _ _ _ (readLine_header hObject _)]
    have hne : ascii "object" ≠ ascii "tree" := by decide
    simp only [hne, if_false, if_true]
    exact signGitTag_built env _ _ _ _ _ _ _ _ _ _ _ (readLine_header hType _)
      (readLine_header hTag _) (readLine_header hTagger _)
  · have c1 := IsLine_rebuilt (ascii "object ") objectLine (by decide)
    have c2 := IsLine_rebuilt (ascii "type ") typeLine (by decide)
    have c3 := IsLine_rebuilt (ascii "tag ") tagLine (by decide)
    have c4 := IsLine_rebuilt (ascii "tagger ") taggerLine (by decide)
    simp only [TagInfo.text]
    generalize ascii "object " ++ remainder objectLine ++ ascii "\n" = r1 at c1 ⊢
    generalize ascii "type " ++ remainder typeLine ++ ascii "\n" = r2 at c2 ⊢
    generalize ascii "tag " ++ remainder tagLine ++ ascii "\n" = r3 at c3 ⊢
    generalize ascii "tagger " ++ remainder taggerLine ++ ascii "\n" = r4 at c4 ⊢
    constructor
    · intro h
      simp only [List.append_assoc] at h
      obtain ⟨e1, h⟩ := line_append_inj c1 hObject.1 h
      obtain ⟨e2, h⟩ := line_append_inj c2 hType.1 h
      obtain ⟨e3, h⟩ := line_append_inj c3 hTag.1 h
      obtain ⟨e4, _⟩ := line_append_inj c4 hTagger.1 h
      exact ⟨e1.symm, e2.symm, e3.symm, e4.symm⟩
    · rintro ⟨e1, e2, e3, e4⟩
      rw [← e1, ← e2, ← e3, ← e4]

/-- Witness of the amended C2: a tag object whose tagger name has two spaces between its
words; the `Tagger` field holds the normalised value and the message is kept exactly. -/
theorem signGit_tag_roundtrip_witness :
    (signGit sampleEnv
        (.ok (ascii "object abc\ntype commit\ntag v1\ntagger A  B <a@x>\n\nmsg\n"))).built
      = some (Payload.tag
          { Object := ascii "abc", Type_ := ascii "commit", Tag := ascii "v1"
            Tagger := ascii "A B <a@x>", Message := ascii "\nmsg\n" }) :=
  (signGit_tag_roundtrip sampleEnv (ascii "object abc\n") (ascii "type commit\n")
    (ascii "tag v1\n") (ascii "tagger A  B <a@x>\n") (ascii "\nmsg\n")
    (by decide) (by decide) (by decide) (by decide)).1

/-- C3, the code at the failing input: a tag object whose `tag` and `type` lines are
swapped is not rejected. `signGit` builds a `TagInfo` with the two values exchanged, sends
the request and exits with status 0 after writing the signature. -/
theorem signGit_tag_order_unchecked :
    signGit sampleEnv
        (.ok (ascii "object abc\ntag v1\ntype commit\ntagger T <t@x>\n\nmsg\n"))
      = { exitCode := 0
          stdout := ascii "SIG\n"
          gpgStdin := none
          built := some (Payload.tag
            { Object := ascii "abc", Type_ := ascii "v1", Tag := ascii "commit"
              Tagger := ascii "T <t@x>", Message := ascii "\nmsg\n" })
          sent := some
            { NotifyPrefix := ascii "krgpg-notify"
              GitSignRequest := some
                { Commit := none
                  Tag := some
                    { Object := ascii "abc", Type_ := ascii "v1", Tag := ascii "commit"
                      Tagger := ascii "T <t@x>", Message := ascii "\nmsg\n" }
                  UserId := ascii "me" } } } := by
  decide

/-- C4, the code at the failing input: a commit object in which the line after the `author`
line has the leading token `foo` is not rejected. `signGit` builds a `CommitInfo` with the
rest of that line as `Committer`, sends the request and exits with status 0 after writing
the signature. -/
theorem signGit_committer_unchecked :
    signGit sampleEnv (.ok (ascii "tree abc\nauthor A <a@x>\nfoo B <b@x>\n\nmsg\n"))
      = { exitCode := 0
          stdout := ascii "SIG\n"
          gpgStdin := none
          built := some (Payload.commit
            { Tree := ascii "abc", Parent := none, MergeParents := none
              Author := ascii "A <a@x>", Committer := ascii "B <b@x>"
              Message := ascii "\nmsg\n" })
          sent := some
            { NotifyPrefix := ascii "krgpg-notify"
              GitSignRequest := some
                { Commit := some
                    { Tree := ascii "abc", Parent := none, MergeParents := none
                      Author := ascii "A <a@x>", Committer := ascii "B <b@x>"
                      Message := ascii "\nmsg\n" }
                  Tag := none
                  UserId := ascii "me" } } } := by
  decide

/-- C5, the code at the failing input: for a response obtained without transport error
whose error tag is `timeout`, `requestSignature` prints the success line and returns the
response with a nil error. -/
theorem requestSignature_unknown_tag_is_success :
    requestSignature (fun _ => (⟨none, some (ascii "timeout")⟩, none))
        ⟨ascii "krgpg-notify", none⟩
      = { status := StatusLine.success
          sig := ⟨none, some (ascii "timeout")⟩
          err := none } := by
  decide

/-- C6, the code at the failing input: with a local `gpg` present, an input whose first
line cannot be read (no newline, or empty input) makes `signGit` exit with status 1 without
running `gpg`; an input whose first line has an unknown leading token does run `gpg` on the
original bytes. -/
theorem signGit_first_line_failure_exits :
    sampleEnv.HasGPG = true
    ∧ signGit sampleEnv (.ok (ascii "tree abc123"))
        = { exitCode := 1, stdout := [], gpgStdin := none, built := none, sent := none }
    ∧ signGit sampleEnv (.ok (ascii ""))
        = { exitCode := 1, stdout := [], gpgStdin := none, built := none, sent := none }
    ∧ (signGit sampleEnv (.ok (ascii "hello world\n"))).gpgStdin
        = some (ascii "hello world\n") := by
  decide

/-- Counterexample to C7 as stated: when the local tool exits with status 2, the process
exits with status 1. -/
theorem redirectToGPG_status_two :
    redirectToGPG (CmdResult.exited 2) = 1 ∧ redirectToGPG (CmdResult.exited 2) ≠ 2 := by
  decide

/-- C7, amended: the process exits with status 0 when the local signing tool ran and exited
with status 0, and with status 1 in every other case (any non-zero exit status of the tool,
or a tool that could not be run). -/
theorem redirectToGPG_exit (run : CmdResult) :
    redirectToGPG run = if run = CmdResult.exited 0 then 0 else 1 := by
  cases run with
  | exited s =>
    cases s with
    | zero => rfl
    | succ k => simp [redirectToGPG, CmdResult.Run]
  | failed => simp [redirectToGPG, CmdResult.Run]

/-- C8: for every finite sequence of results of the notification reader, the strings printed
by the loop of `startLogger` are the first occurrences, in order of arrival, of the
messages read before the first error other than `io.EOF`. No string is printed twice, the
printed strings are exactly the messages read before that error, in their order, and
whatever follows an error other than `io.EOF` changes nothing. -/
theorem startLogger_prints (reads : List (GoString × Option Error)) :
    startLogger (.ok reads) = firstOccurrences (readBeforeError reads)
    ∧ (startLogger (.ok reads)).Nodup
    ∧ (∀ m, m ∈ startLogger (.ok reads) ↔ m ∈ readBeforeError reads)
    ∧ (startLogger (.ok reads)).Sublist (readBeforeError reads)
    ∧ (∀ (n : GoString) (e : Error) (later : List (GoString × Option Error)),
        e ≠ Error.EOF →
          startLogger (.ok (reads ++ (n, some e) :: later)) = startLogger (.ok reads)) := by
  have h : startLogger (.ok reads) = firstOccurrences (readBeforeError reads) := by
    simp [startLogger, loop_eq_filter]
  refine ⟨h, ?_, ?_, ?_, ?_⟩
  · rw [h]; exact firstOccurrences_nodup _
  · rw [h]; exact firstOccurrences_mem _
  · rw [h]; exact firstOccurrences_sublist _
  · intro n e later he
    simp only [startLogger]
    exact loop_stop reads later n e he []

/-- Witness of C8: a message read three times is printed once, and nothing is printed after
the reader fails. -/
theorem startLogger_prints_witness :
    startLogger (.ok
        [(ascii "a", none), (ascii "", some Error.EOF), (ascii "b", none), (ascii "a", none),
          (ascii "a", none), (ascii "", some (Error.Other (ascii "closed"))),
          (ascii "c", none)])
      = [ascii "a", ascii "b"] :=
  ((startLogger_prints
      [(ascii "a", none), (ascii "", some Error.EOF), (ascii "b", none), (ascii "a", none),
        (ascii "a", none)]).2.2.2.2
    (ascii "") (Error.Other (ascii "closed")) [(ascii "c", none)] (by decide)).trans
    (by decide)

/-- C9: the result of `requestSignature` depends only on the pair (response, transport
error) returned by the daemon client. A transport error (the not-paired sentinel, the
daemon-unreachable sentinel or any other) is returned unchanged, with its own status line
and never the success line; a response with error tag `rejected` gives a non-nil error and
the rejected line; success is reported exactly when a nil error is returned, which happens
exactly when there is no transport error and the error tag is not `rejected`. -/
theorem requestSignature_outcome
    (RequestGitSignature : Request → GitSignResponse × Option Error) (request : Request) :
    (∀ (rpc : Request → GitSignResponse × Option Error) (req : Request),
        rpc req = RequestGitSignature request →
          requestSignature rpc req = requestSignature RequestGitSignature request)
    ∧ (∀ e, (RequestGitSignature request).2 = some e →
        (requestSignature RequestGitSignature request).err = some e
        ∧ (requestSignature RequestGitSignature request).status ≠ StatusLine.success
        ∧ (e = Error.ErrNotPaired →
            (requestSignature RequestGitSignature request).status = StatusLine.notPaired)
        ∧ (e = Error.ErrConnectingToDaemon →
            (requestSignature RequestGitSignature request).status
              = StatusLine.daemonUnreachable))
    ∧ ((RequestGitSignature request).2 = none →
        (RequestGitSignature request).1.Error = some (ascii "rejected") →
          (requestSignature RequestGitSignature request).err ≠ none
          ∧ (requestSignature RequestGitSignature request).status = StatusLine.rejected)
    ∧ ((requestSignature RequestGitSignature request).status = StatusLine.success ↔
        (requestSignature RequestGitSignature request).err = none)
    ∧ ((requestSignature RequestGitSignature request).err = none ↔
        (RequestGitSignature request).2 = none
        ∧ (RequestGitSignature request).1.Error ≠ some (ascii "rejected")) := by
  refine ⟨?_, ?_, ?_, ?_, ?_⟩
  · intro rpc req h
    simp only [requestSignature, h]
  · intro e he
    unfold requestSignature
    rcases hr : RequestGitSignature request with ⟨resp, err⟩
    rw [hr] at he
    simp only at he
    subst he
    cases e <;> simp
  · intro h1 h2
    unfold requestSignature
    rcases hr : RequestGitSignature request with ⟨resp, err⟩
    rw [hr] at h1 h2
    simp only at h1 h2
    subst h1
    simp [h2]
  · unfold requestSignature
    rcases hr : RequestGitSignature request with ⟨resp, err⟩
    cases err with
    | none => by_cases h : resp.Error = some (ascii "rejected") <;> simp [h]
    | some e => cases e <;> simp
  · unfold requestSignature
    rcases hr : RequestGitSignature request with ⟨resp, err⟩
    cases err with
    | none => by_cases h : resp.Error = some (ascii "rejected") <;> simp [h]
    | some e => cases e <;> simp

/-- Witness of C9: a daemon client that reports the not-paired sentinel. -/
theorem requestSignature_outcome_witness :
    (requestSignature (fun _ => (⟨none, none⟩, some Error.ErrNotPaired))
        ⟨ascii "krgpg-notify", none⟩).err = some Error.ErrNotPaired
    ∧ (requestSignature (fun _ => (⟨none, none⟩, some Error.ErrNotPaired))
        ⟨ascii "krgpg-notify", none⟩).status = StatusLine.notPaired :=
  have h := (requestSignature_outcome (fun _ => (⟨none, none⟩, some Error.ErrNotPaired))
    ⟨ascii "krgpg-notify", none⟩).2.1 Error.ErrNotPaired rfl
  ⟨h.1, h.2.2.1 rfl⟩

/-- C10: `readLineSplittingFirstToken` normalises white space. For a line laid out as
optional white space, a first token, further tokens each preceded by non-empty white space,
optional white space and the newline, it returns the first token and the further tokens
joined by single spaces, whatever the white space was, so two lines that differ only in
their white space give the same result. Every input it accepts starts with a line of that
layout; the first result is a token and the remainder has no leading, trailing or
consecutive white space, hence differs from every value that has some. -/
theorem readLineSplittingFirstToken_normalises
    (s0 t0 : GoString) (more : List (GoString × GoString)) (sEnd after : GoString)
    (hs0 : Blank s0) (ht0 : Token t0)
    (hmore : ∀ p ∈ more, Blank p.1 ∧ p.1 ≠ [] ∧ Token p.2) (hEnd : Blank sEnd)
    (hnl : 10 ∉ s0 ∧ (∀ p ∈ more, 10 ∉ p.1) ∧ 10 ∉ sEnd) :
    readLineSplittingFirstToken (layout s0 t0 more sEnd ++ ascii "\n" ++ after)
        = .ok (t0, Join (more.map Prod.snd) (ascii " "), after)
    ∧ NoExtraSpace (Join (more.map Prod.snd) (ascii " "))
    ∧ (∀ (reader : List Nat) (tok rest reader1 : GoString),
        readLineSplittingFirstToken reader = .ok (tok, rest, reader1) →
          (∃ (b0 : GoString) (toks : List (GoString × GoString)) (bEnd : GoString),
            Blank b0 ∧ (∀ p ∈ toks, Blank p.1 ∧ p.1 ≠ [] ∧ Token p.2) ∧ Blank bEnd ∧
            (10 ∉ b0 ∧ (∀ p ∈ toks, 10 ∉ p.1) ∧ 10 ∉ bEnd) ∧
            reader = layout b0 tok toks bEnd ++ ascii "\n" ++ reader1 ∧
            rest = Join (toks.map Prod.snd) (ascii " "))
          ∧ Token tok ∧ NoExtraSpace rest ∧
            ∀ value : GoString, ¬ NoExtraSpace value → rest ≠ value) := by
  refine ⟨readLine_layout s0 t0 more sEnd after hs0 ht0 hmore hEnd hnl, ?_, ?_⟩
  · apply NoExtraSpace_Join
    intro u hu
    obtain ⟨p, hp, rfl⟩ := List.mem_map.mp hu
    exact (hmore p hp).2.2
  · intro reader tok rest reader1 h
    obtain ⟨h1, h2⟩ := readLine_normal h
    exact ⟨readLine_layout_exists h, h1, h2, fun value hv e => hv (e ▸ h2)⟩

/-- Witness of C10: an `author` line with runs of spaces, a tab and a carriage return gives
the same result as the line with single spaces. -/
theorem readLineSplittingFirstToken_normalises_witness :
    readLineSplittingFirstToken (ascii "author  A\t B \r\ncommitter C\n")
        = .ok (ascii "author", ascii "A B", ascii "committer C\n")
    ∧ readLineSplittingFirstToken (ascii "author A B\ncommitter C\n")
        = .ok (ascii "author", ascii "A B", ascii "committer C\n")
    ∧ NoExtraSpace (ascii "A B") :=
  have h1 := readLineSplittingFirstToken_normalises [] (ascii "author")
    [(ascii "  ", ascii "A"), (ascii "\t ", ascii "B")] (ascii " \r") (ascii "committer C\n")
    (by decide) (by decide) (by decide) (by decide) (by decide)
  have h2 := readLineSplittingFirstToken_normalises [] (ascii "author")
    [(ascii " ", ascii "A"), (ascii " ", ascii "B")] [] (ascii "committer C\n")
    (by decide) (by decide) (by decide) (by decide) (by decide)
  ⟨h1.1, h2.1, h1.2.1⟩

end Krgpg
